import Mathlib

/-!
Verification of the OVS flow classifier specification against the code in
`lib/classifier.h`.  The repository provides only the header (declarations and
the long design comment); the function bodies live in `lib/classifier.c`,
which is not part of the source tree here.  Consequently the operational
definitions below are modelled from the specification text (and from the
header's own comments), as indicated in each doc comment.

Flows, rule values and masks are bit vectors, modelled as natural numbers
with the usual bitwise operations.  Priorities are `unsigned int`, modelled
as natural numbers.
-/

set_option maxHeartbeats 1600000

namespace Ovs

/-! ### Bit-vector helpers -/

theorem eq_zero_iff_testBit (n : Nat) : n = 0 ↔ ∀ i, n.testBit i = false := by
  constructor
  · intro h i
    subst h
    exact Nat.zero_testBit i
  · intro h
    apply Nat.eq_of_testBit_eq
    intro i
    rw [h i, Nat.zero_testBit]

/-- Masked agreement: `(F XOR G) AND m == 0` says exactly that `F` and `G`
agree on every bit set in `m`. -/
theorem maskAgree_iff (F G m : Nat) :
    (F ^^^ G) &&& m = 0 ↔ ∀ i, m.testBit i = true → F.testBit i = G.testBit i := by
  rw [eq_zero_iff_testBit]
  constructor
  · intro h i hm
    have hi := h i
    rw [Nat.testBit_land, Nat.testBit_xor, hm, Bool.and_true] at hi
    cases hF : F.testBit i <;> cases hG : G.testBit i <;> simp [hF, hG] at hi ⊢
  · intro h i
    rw [Nat.testBit_land, Nat.testBit_xor]
    cases hm : m.testBit i
    · simp
    · rw [h i hm]
      cases G.testBit i <;> simp

/-! ### Rules

`struct cls_rule` (classifier.h:259-263) carries a `minimatch` (a value
miniflow and a mask minimask) and a priority.  We flatten the miniflow
representation to the bit vector it denotes. -/

/-- A classifier rule: match value, match mask and priority
(`struct cls_rule`, classifier.h:259-263, with the match flattened to the
bit vectors it denotes). -/
structure CRule where
  value : Nat
  mask : Nat
  prio : Nat
deriving DecidableEq

/-- Modelled from the spec (§8, property 1): flow `F` matches rule `r` iff
`(F XOR r.value) AND r.mask == 0`. -/
def ruleMatches (r : CRule) (F : Nat) : Bool :=
  (F ^^^ r.value) &&& r.mask == 0

/-! ### Subtables

Modelled from the spec §2/§4.3 and the header comment "Basic Classifier
Design" (classifier.h:98-127): each distinct rule mask owns one subtable
holding exactly the installed rules with that mask. -/

/-- A subtable: the shared mask, and the rules installed under it
(`struct cls_subtable`, spec §3). -/
structure Subtable where
  mask : Nat
  rules : List CRule
deriving DecidableEq

/-- The maximum priority of any rule in the subtable (spec §3:
"max priority of any rule currently in the subtable"). -/
def stMaxPrio (st : Subtable) : Nat :=
  (st.rules.map CRule.prio).foldr max 0

/-- Modelled from the spec: grouping of the installed rule set into
per-mask subtables ("each form of cls_rule present, based on its
match.mask, goes into a separate cls_subtable", classifier.h:112-115). -/
def subtablesOf (c : List CRule) : List Subtable :=
  ((c.map CRule.mask).dedup).map (fun m => ⟨m, c.filter (fun r => r.mask == m)⟩)

/-- Descending order on subtables by maximum priority (spec §4.3:
"subtables are kept in a global vector ordered by their max_priority
(descending)"). -/
def stGE (a b : Subtable) : Prop :=
  stMaxPrio b ≤ stMaxPrio a

instance : DecidableRel stGE := fun _ _ => Nat.decLe _ _

instance : IsTotal Subtable stGE :=
  ⟨fun x y => (Nat.le_total (stMaxPrio y) (stMaxPrio x)).imp (fun h => h) (fun h => h)⟩

instance : IsTrans Subtable stGE :=
  ⟨fun _ _ _ h1 h2 => Nat.le_trans h2 h1⟩

/-! ### Lookup

Modelled from the spec §4.5 "lookup" and the header comment
(classifier.h:112-121): walk the priority-ordered subtable vector, stop as
soon as the best priority found reaches the next subtable's maximum
priority, probe each remaining subtable and OR the bits it consulted into
the wildcard mask.  We model the configuration with no prefix-trie fields
and elide the staged-index refinement, so a probed subtable un-wildcards
its full mask (spec §4.3 step 3). -/

/-- Early-stop test of the subtable walk (spec §4.5 step 4:
"If best_prio ≥ S.max_priority, stop"). -/
def stStop (best : Option CRule) (st : Subtable) : Bool :=
  match best with
  | none => false
  | some b => decide (stMaxPrio st ≤ b.prio)

/-- Track the best match so far (spec §4.5 step 4: "If a match with
priority p > best_prio is found, update best"). -/
def updBest (r : CRule) (best : Option CRule) : Option CRule :=
  match best with
  | none => some r
  | some b => if b.prio < r.prio then some r else some b

/-- Best-priority matching rule in a chain of rules. -/
def chainBest (F : Nat) : List CRule → Option CRule
  | [] => none
  | r :: rest =>
    if ruleMatches r F then updBest r (chainBest F rest) else chainBest F rest

/-- Best-priority rule of the subtable matching flow `F`
(the hash probe of spec §4.3, returning the head of the matched
priority-ordered chain). -/
def stLookup (F : Nat) (st : Subtable) : Option CRule :=
  chainBest F st.rules

/-- The priority-ordered subtable walk of spec §4.5, threading the best
match and the accumulated wildcard mask. -/
def walk (F : Nat) : List Subtable → Option CRule → Nat → Option CRule × Nat
  | [], best, W => (best, W)
  | st :: rest, best, W =>
    if stStop best st then (best, W)
    else
      match stLookup F st with
      | some r => walk F rest (updBest r best) (W ||| st.mask)
      | none => walk F rest best (W ||| st.mask)

theorem walk_cons (F : Nat) (st : Subtable) (rest : List Subtable) (best : Option CRule)
    (W : Nat) :
    walk F (st :: rest) best W =
      if stStop best st then (best, W)
      else
        match stLookup F st with
        | some r => walk F rest (updBest r best) (W ||| st.mask)
        | none => walk F rest best (W ||| st.mask) := rfl

theorem walk_cons_stop {F : Nat} {st : Subtable} {rest : List Subtable} {best : Option CRule}
    {W : Nat} (hs : stStop best st = true) : walk F (st :: rest) best W = (best, W) := by
  rw [walk_cons, if_pos hs]

theorem walk_cons_some {F : Nat} {st : Subtable} {rest : List Subtable} {best : Option CRule}
    {W : Nat} {r : CRule} (hs : ¬stStop best st = true) (hl : stLookup F st = some r) :
    walk F (st :: rest) best W = walk F rest (updBest r best) (W ||| st.mask) := by
  rw [walk_cons, if_neg hs, hl]

theorem walk_cons_none {F : Nat} {st : Subtable} {rest : List Subtable} {best : Option CRule}
    {W : Nat} (hs : ¬stStop best st = true) (hl : stLookup F st = none) :
    walk F (st :: rest) best W = walk F rest best (W ||| st.mask) := by
  rw [walk_cons, if_neg hs, hl]

/-- Modelled from the spec: `classifier_lookup` (classifier.h:295-297,
spec §4.5): probe the per-mask subtables in descending max-priority order,
returning the best match and OR-accumulating the consulted bits into the
caller's wildcard buffer. -/
def classifier_lookup (c : List CRule) (F : Nat) (W : Nat) : Option CRule × Nat :=
  walk F (List.insertionSort stGE (subtablesOf c)) none W

/-! ### Basic facts about the grouping and the walk -/

theorem le_foldr_max {a : Nat} {l : List Nat} (h : a ∈ l) : a ≤ l.foldr max 0 := by
  induction l with
  | nil => cases h
  | cons x xs ih =>
    rcases List.mem_cons.mp h with h | h
    · subst h
      exact Nat.le_max_left _ _
    · exact Nat.le_trans (ih h) (Nat.le_max_right _ _)

theorem prio_le_stMaxPrio {r : CRule} {st : Subtable} (h : r ∈ st.rules) :
    r.prio ≤ stMaxPrio st :=
  le_foldr_max (List.mem_map.mpr ⟨r, h, rfl⟩)

theorem mem_subtablesOf {c : List CRule} {r : CRule} :
    r ∈ c ↔ ∃ st ∈ subtablesOf c, r ∈ st.rules := by
  constructor
  · intro hr
    refine ⟨⟨r.mask, c.filter (fun q => q.mask == r.mask)⟩, ?_, ?_⟩
    · exact List.mem_map.mpr ⟨r.mask, List.mem_dedup.mpr (List.mem_map.mpr ⟨r, hr, rfl⟩), rfl⟩
    · exact List.mem_filter.mpr ⟨hr, by simp⟩
  · rintro ⟨st, hst, hr⟩
    rcases List.mem_map.mp hst with ⟨m, _, rfl⟩
    exact (List.mem_filter.mp hr).1

theorem mask_of_mem_subtablesOf {c : List CRule} {st : Subtable} (hst : st ∈ subtablesOf c)
    {r : CRule} (hr : r ∈ st.rules) : r.mask = st.mask := by
  rcases List.mem_map.mp hst with ⟨m, _, rfl⟩
  have := (List.mem_filter.mp hr).2
  simpa using this

theorem chainBest_sound {F : Nat} {l : List CRule} :
    ∀ {y : CRule}, chainBest F l = some y → y ∈ l ∧ ruleMatches y F = true := by
  induction l with
  | nil => intro y h; cases h
  | cons x xs ih =>
    intro y h
    unfold chainBest at h
    by_cases hm : ruleMatches x F
    · rw [if_pos hm] at h
      cases hacc : chainBest F xs with
      | none =>
        rw [hacc] at h
        simp only [updBest] at h
        cases h
        exact ⟨List.mem_cons_self _ _, hm⟩
      | some b =>
        rw [hacc] at h
        simp only [updBest] at h
        have hb := ih hacc
        by_cases hp : b.prio < x.prio
        · rw [if_pos hp] at h
          cases h
          exact ⟨List.mem_cons_self _ _, hm⟩
        · rw [if_neg hp] at h
          cases h
          exact ⟨List.mem_cons_of_mem _ hb.1, hb.2⟩
    · rw [if_neg hm] at h
      have hb := ih h
      exact ⟨List.mem_cons_of_mem _ hb.1, hb.2⟩

theorem chainBest_complete {F : Nat} {l : List CRule} {r : CRule} (hr : r ∈ l)
    (hm : ruleMatches r F = true) :
    ∃ y, chainBest F l = some y ∧ r.prio ≤ y.prio := by
  induction l with
  | nil => cases hr
  | cons x xs ih =>
    unfold chainBest
    rcases List.mem_cons.mp hr with h | h
    · subst h
      rw [if_pos hm]
      cases hacc : chainBest F xs with
      | none => exact ⟨r, rfl, Nat.le_refl _⟩
      | some b =>
        simp only [updBest]
        by_cases hp : b.prio < r.prio
        · rw [if_pos hp]
          exact ⟨r, rfl, Nat.le_refl _⟩
        · rw [if_neg hp]
          exact ⟨b, rfl, Nat.le_of_not_lt hp⟩
    · rcases ih h with ⟨y, hy, hle⟩
      rw [hy]
      by_cases hmx : ruleMatches x F
      · rw [if_pos hmx]
        simp only [updBest]
        by_cases hp : y.prio < x.prio
        · rw [if_pos hp]
          exact ⟨x, rfl, Nat.le_trans hle (Nat.le_of_lt hp)⟩
        · rw [if_neg hp]
          exact ⟨y, rfl, hle⟩
      · rw [if_neg hmx]
        exact ⟨y, rfl, hle⟩

theorem stLookup_sound {F : Nat} {st : Subtable} {y : CRule} (h : stLookup F st = some y) :
    y ∈ st.rules ∧ ruleMatches y F = true :=
  chainBest_sound h

theorem stLookup_complete {F : Nat} {st : Subtable} {r : CRule} (hr : r ∈ st.rules)
    (hm : ruleMatches r F = true) :
    ∃ y, stLookup F st = some y ∧ r.prio ≤ y.prio :=
  chainBest_complete hr hm

/-- Priority of an optional best match, with `none` below every rule. -/
def bprio : Option CRule → Nat
  | none => 0
  | some b => b.prio + 1

theorem bprio_updBest_left (r : CRule) (best : Option CRule) :
    r.prio + 1 ≤ bprio (updBest r best) := by
  cases best with
  | none => exact Nat.le_refl _
  | some b =>
    by_cases hp : b.prio < r.prio
    · simp [updBest, bprio, hp]
    · simp only [updBest, bprio, if_neg hp]
      exact Nat.succ_le_succ (Nat.le_of_not_lt hp)

theorem bprio_updBest_right (r : CRule) (best : Option CRule) :
    bprio best ≤ bprio (updBest r best) := by
  cases best with
  | none => exact Nat.zero_le _
  | some b =>
    by_cases hp : b.prio < r.prio
    · simp only [updBest, bprio, if_pos hp]
      exact Nat.succ_le_succ (Nat.le_of_lt hp)
    · simp [updBest, bprio, hp]

theorem walk_best_mono (F : Nat) (sts : List Subtable) (best : Option CRule) (W : Nat) :
    bprio best ≤ bprio (walk F sts best W).1 := by
  induction sts generalizing best W with
  | nil => exact Nat.le_refl _
  | cons st rest ih =>
    unfold walk
    by_cases hs : stStop best st
    · rw [if_pos hs]
    · rw [if_neg hs]
      cases h : stLookup F st with
      | some r => exact Nat.le_trans (bprio_updBest_right r best) (ih _ _)
      | none => exact ih _ _

theorem walk_sound (F : Nat) (sts : List Subtable) (best : Option CRule) (W : Nat)
    {y : CRule} (h : (walk F sts best W).1 = some y) :
    (∃ st ∈ sts, y ∈ st.rules ∧ ruleMatches y F = true) ∨ best = some y := by
  induction sts generalizing best W with
  | nil => exact Or.inr h
  | cons st rest ih =>
    unfold walk at h
    by_cases hs : stStop best st
    · rw [if_pos hs] at h
      exact Or.inr h
    · rw [if_neg hs] at h
      cases hl : stLookup F st with
      | some r =>
        rw [hl] at h
        rcases ih _ _ h with ⟨st', hst', hy⟩ | hb
        · exact Or.inl ⟨st', List.mem_cons_of_mem _ hst', hy⟩
        · have hr := stLookup_sound hl
          cases best with
          | none =>
            cases hb
            exact Or.inl ⟨st, List.mem_cons_self _ _, hr.1, hr.2⟩
          | some b =>
            by_cases hp : b.prio < r.prio
            · simp only [updBest, if_pos hp] at hb
              cases hb
              exact Or.inl ⟨st, List.mem_cons_self _ _, hr.1, hr.2⟩
            · simp only [updBest, if_neg hp] at hb
              exact Or.inr hb
      | none =>
        rw [hl] at h
        rcases ih _ _ h with ⟨st', hst', hy⟩ | hb
        · exact Or.inl ⟨st', List.mem_cons_of_mem _ hst', hy⟩
        · exact Or.inr hb

theorem walk_maximal (F : Nat) (sts : List Subtable) (best : Option CRule) (W : Nat)
    (hsort : List.Pairwise stGE sts) :
    ∀ st ∈ sts, ∀ r ∈ st.rules, ruleMatches r F = true →
      r.prio < bprio (walk F sts best W).1 := by
  induction sts generalizing best W with
  | nil => intro st hst; cases hst
  | cons st0 rest ih =>
    have hhead := (List.pairwise_cons.mp hsort).1
    have htail := (List.pairwise_cons.mp hsort).2
    intro st hst r hr hm
    unfold walk
    by_cases hs : stStop best st0
    · rw [if_pos hs]
      cases best with
      | none => simp [stStop] at hs
      | some b =>
        simp only [stStop, decide_eq_true_eq] at hs
        have h1 : r.prio ≤ stMaxPrio st := prio_le_stMaxPrio hr
        have h2 : stMaxPrio st ≤ stMaxPrio st0 := by
          rcases List.mem_cons.mp hst with h | h
          · subst h; exact Nat.le_refl _
          · exact hhead st h
        calc r.prio ≤ stMaxPrio st0 := Nat.le_trans h1 h2
          _ ≤ b.prio := hs
          _ < bprio (some b) := Nat.lt_succ_self _
    · rw [if_neg hs]
      rcases List.mem_cons.mp hst with h | h
      · subst h
        cases hl : stLookup F st with
        | some y =>
          rcases stLookup_complete hr hm with ⟨y', hy', hle⟩
          rw [hl] at hy'
          cases hy'
          calc r.prio < y.prio + 1 := Nat.lt_succ_of_le hle
            _ ≤ bprio (updBest y best) := bprio_updBest_left y best
            _ ≤ bprio (walk F rest (updBest y best) (W ||| st.mask)).1 := walk_best_mono _ _ _ _
        | none =>
          rcases stLookup_complete hr hm with ⟨y', hy', _⟩
          rw [hl] at hy'
          cases hy'
      · cases hl : stLookup F st0 with
        | some y => exact ih _ _ htail st h r hr hm
        | none => exact ih _ _ htail st h r hr hm

theorem mem_sorted_subtablesOf {c : List CRule} {r : CRule} :
    r ∈ c ↔ ∃ st ∈ List.insertionSort stGE (subtablesOf c), r ∈ st.rules := by
  rw [mem_subtablesOf]
  constructor
  · rintro ⟨st, hst, hr⟩
    exact ⟨st, (List.perm_insertionSort stGE (subtablesOf c)).mem_iff.mpr hst, hr⟩
  · rintro ⟨st, hst, hr⟩
    exact ⟨st, (List.perm_insertionSort stGE (subtablesOf c)).mem_iff.mp hst, hr⟩

/-- C1: `classifier_lookup(F)` returns a maximum-priority installed rule
matching `F` under masked equality, and `none` exactly when no installed
rule matches. -/
theorem classifier_lookup_correct (c : List CRule) (F W : Nat) :
    (∀ r, (classifier_lookup c F W).1 = some r →
        r ∈ c ∧ ruleMatches r F = true ∧
          ∀ q ∈ c, ruleMatches q F = true → q.prio ≤ r.prio) ∧
    ((classifier_lookup c F W).1 = none → ∀ q ∈ c, ruleMatches q F = false) := by
  have hsort : List.Pairwise stGE (List.insertionSort stGE (subtablesOf c)) :=
    List.sorted_insertionSort stGE (subtablesOf c)
  constructor
  · intro r hres
    rw [show classifier_lookup c F W = walk F (List.insertionSort stGE (subtablesOf c)) none W
      from rfl] at hres
    rcases walk_sound F _ none W hres with ⟨st, hst, hr, hm⟩ | hb
    · refine ⟨mem_sorted_subtablesOf.mpr ⟨st, hst, hr⟩, hm, ?_⟩
      intro q hq hqm
      rcases mem_sorted_subtablesOf.mp hq with ⟨st', hst', hq'⟩
      have := walk_maximal F _ none W hsort st' hst' q hq' hqm
      rw [hres] at this
      exact Nat.lt_succ_iff.mp this
    · cases hb
  · intro hres q hq
    rw [show classifier_lookup c F W = walk F (List.insertionSort stGE (subtablesOf c)) none W
      from rfl] at hres
    rcases mem_sorted_subtablesOf.mp hq with ⟨st', hst', hq'⟩
    by_cases hm : ruleMatches q F
    · have := walk_maximal F _ none W hsort st' hst' q hq' hm
      rw [hres] at this
      cases this
    · exact Bool.eq_false_iff.mpr hm

/-- Witness for C1 at a concrete classifier and flow. -/
theorem classifier_lookup_correct_witness :
    (⟨5, 7, 9⟩ : CRule) ∈ [(⟨5, 7, 9⟩ : CRule)] ∧
      ruleMatches ⟨5, 7, 9⟩ 13 = true ∧
      ∀ q ∈ [(⟨5, 7, 9⟩ : CRule)], ruleMatches q 13 = true →
        q.prio ≤ (⟨5, 7, 9⟩ : CRule).prio :=
  (classifier_lookup_correct [⟨5, 7, 9⟩] 13 0).1 ⟨5, 7, 9⟩ (by decide)

/-! ### Wildcard accumulation and soundness -/

theorem walk_W_mono (F : Nat) (sts : List Subtable) (best : Option CRule) (W : Nat) (i : Nat)
    (h : W.testBit i = true) : ((walk F sts best W).2).testBit i = true := by
  induction sts generalizing best W with
  | nil => exact h
  | cons st rest ih =>
    unfold walk
    by_cases hs : stStop best st
    · rw [if_pos hs]
      exact h
    · rw [if_neg hs]
      have hW : (W ||| st.mask).testBit i = true := by
        rw [Nat.testBit_lor, h, Bool.true_or]
      cases hl : stLookup F st with
      | some r => exact ih _ _ hW
      | none => exact ih _ _ hW

/-- Flows agreeing on a rule's mask are matched identically by that rule. -/
theorem ruleMatches_agree {F G : Nat} {r : CRule} (h : (F ^^^ G) &&& r.mask = 0) :
    ruleMatches r F = ruleMatches r G := by
  have hFG := (maskAgree_iff F G r.mask).mp h
  have hval : (F ^^^ r.value) &&& r.mask = (G ^^^ r.value) &&& r.mask := by
    apply Nat.eq_of_testBit_eq
    intro i
    rw [Nat.testBit_land, Nat.testBit_land, Nat.testBit_xor, Nat.testBit_xor]
    cases hm : r.mask.testBit i
    · rw [Bool.and_false, Bool.and_false]
    · rw [hFG i hm]
  unfold ruleMatches
  rw [hval]

theorem chainBest_agree {F G : Nat} {l : List CRule}
    (h : ∀ r ∈ l, ruleMatches r F = ruleMatches r G) :
    chainBest F l = chainBest G l := by
  induction l with
  | nil => rfl
  | cons x xs ih =>
    unfold chainBest
    rw [h x (List.mem_cons_self _ _), ih (fun r hr => h r (List.mem_cons_of_mem _ hr))]

/-- Two-flow bisimulation of the subtable walk: if the flows agree on every
bit both walks consulted, the walks are identical (same result and same
accumulated wildcards). -/
theorem walk_bisim (F G : Nat) (sts : List Subtable) (best : Option CRule) (W : Nat)
    (hmask : ∀ st ∈ sts, ∀ r ∈ st.rules, r.mask = st.mask)
    (hagree : (F ^^^ G) &&& ((walk F sts best W).2 &&& (walk G sts best W).2) = 0) :
    walk F sts best W = walk G sts best W := by
  induction sts generalizing best W with
  | nil => rfl
  | cons st rest ih =>
    by_cases hs : stStop best st
    · unfold walk
      rw [if_pos hs, if_pos hs]
    · have hsubF : ∀ i, st.mask.testBit i = true →
          ((walk F (st :: rest) best W).2).testBit i = true := by
        intro i hi
        unfold walk
        rw [if_neg hs]
        have hW : (W ||| st.mask).testBit i = true := by
          rw [Nat.testBit_lor, hi, Bool.or_true]
        cases hl : stLookup F st with
        | some r => exact walk_W_mono F rest (updBest r best) _ i hW
        | none => exact walk_W_mono F rest best _ i hW
      have hsubG : ∀ i, st.mask.testBit i = true →
          ((walk G (st :: rest) best W).2).testBit i = true := by
        intro i hi
        unfold walk
        rw [if_neg hs]
        have hW : (W ||| st.mask).testBit i = true := by
          rw [Nat.testBit_lor, hi, Bool.or_true]
        cases hl : stLookup G st with
        | some r => exact walk_W_mono G rest (updBest r best) _ i hW
        | none => exact walk_W_mono G rest best _ i hW
      have hst : (F ^^^ G) &&& st.mask = 0 := by
        rw [eq_zero_iff_testBit]
        intro i
        have h0 := (eq_zero_iff_testBit _).mp hagree i
        rw [Nat.testBit_land, Nat.testBit_land] at h0
        rw [Nat.testBit_land]
        cases hx : (F ^^^ G).testBit i
        · rw [Bool.false_and]
        · cases hi : st.mask.testBit i
          · rw [Bool.and_false]
          · rw [hx, hsubF i hi, hsubG i hi] at h0
            simp at h0
      have hlk : stLookup F st = stLookup G st := by
        unfold stLookup
        apply chainBest_agree
        intro r hr
        apply ruleMatches_agree
        rw [hmask st (List.mem_cons_self _ _) r hr]
        exact hst
      have hmask' : ∀ s ∈ rest, ∀ r ∈ s.rules, r.mask = s.mask :=
        fun s hsm => hmask s (List.mem_cons_of_mem _ hsm)
      cases hl : stLookup F st with
      | some r =>
        have hlG : stLookup G st = some r := by rw [← hlk, hl]
        have hFstep : walk F (st :: rest) best W =
            walk F rest (updBest r best) (W ||| st.mask) := walk_cons_some hs hl
        have hGstep : walk G (st :: rest) best W =
            walk G rest (updBest r best) (W ||| st.mask) := walk_cons_some hs hlG
        rw [hFstep, hGstep]
        apply ih (updBest r best) (W ||| st.mask) hmask'
        rw [← hFstep, ← hGstep]
        exact hagree
      | none =>
        have hlG : stLookup G st = none := by rw [← hlk, hl]
        have hFstep : walk F (st :: rest) best W = walk F rest best (W ||| st.mask) :=
          walk_cons_none hs hl
        have hGstep : walk G (st :: rest) best W = walk G rest best (W ||| st.mask) :=
          walk_cons_none hs hlG
        rw [hFstep, hGstep]
        apply ih best (W ||| st.mask) hmask'
        rw [← hFstep, ← hGstep]
        exact hagree

theorem mask_of_sorted {c : List CRule} :
    ∀ st ∈ List.insertionSort stGE (subtablesOf c), ∀ r ∈ st.rules, r.mask = st.mask :=
  fun _st hst _r hr =>
    mask_of_mem_subtablesOf
      ((List.perm_insertionSort stGE (subtablesOf c)).mem_iff.mp hst) hr

/-- Full-lookup form of the bisimulation. -/
theorem classifier_lookup_bisim (c : List CRule) (F G W0 : Nat)
    (hagree : (F ^^^ G) &&&
      ((classifier_lookup c F W0).2 &&& (classifier_lookup c G W0).2) = 0) :
    classifier_lookup c F W0 = classifier_lookup c G W0 :=
  walk_bisim F G (List.insertionSort stGE (subtablesOf c)) none W0 mask_of_sorted hagree

/-- C2: wildcard soundness.  Let `W` be the wildcard mask accumulated by
`classifier_lookup(F)`.  Every flow `F'` agreeing with `F` on all bits set
in `W` obtains the very same lookup result (hence a rule of the same
priority class), and the same accumulated wildcards. -/
theorem classifier_lookup_wildcard_sound (c : List CRule) (F F' W0 : Nat)
    (hagree : (F ^^^ F') &&& (classifier_lookup c F W0).2 = 0) :
    classifier_lookup c F' W0 = classifier_lookup c F W0 := by
  have h : (F ^^^ F') &&&
      ((classifier_lookup c F W0).2 &&& (classifier_lookup c F' W0).2) = 0 := by
    rw [← Nat.land_assoc, hagree, Nat.zero_and]
  exact (classifier_lookup_bisim c F F' W0 h).symm

/-- Witness for C2: flipping a bit outside the accumulated wildcards does
not change the lookup outcome. -/
theorem classifier_lookup_wildcard_sound_witness :
    (13 ^^^ 29) &&& (classifier_lookup [⟨5, 7, 9⟩] 13 0).2 = 0 ∧
      classifier_lookup [⟨5, 7, 9⟩] 29 0 = classifier_lookup [⟨5, 7, 9⟩] 13 0 :=
  ⟨by decide, classifier_lookup_wildcard_sound [⟨5, 7, 9⟩] 13 29 0 (by decide)⟩

/-- C3: non-overlap of generated megaflows.  Take any two flows, look each
up and form the induced megaflow rules `(H AND M, M)` from the returned
wildcard masks.  If the two induced rules overlap (some packet matches
both, i.e. their values agree on the intersection of their masks), then
they are the same rule — so distinct induced megaflow rules never
overlap. -/
theorem megaflow_non_overlap (c : List CRule) (H1 H2 : Nat)
    (hov : ((H1 &&& (classifier_lookup c H1 0).2) ^^^ (H2 &&& (classifier_lookup c H2 0).2)) &&&
      ((classifier_lookup c H1 0).2 &&& (classifier_lookup c H2 0).2) = 0) :
    H1 &&& (classifier_lookup c H1 0).2 = H2 &&& (classifier_lookup c H2 0).2 ∧
      (classifier_lookup c H1 0).2 = (classifier_lookup c H2 0).2 := by
  have hflows : (H1 ^^^ H2) &&&
      ((classifier_lookup c H1 0).2 &&& (classifier_lookup c H2 0).2) = 0 := by
    rw [eq_zero_iff_testBit]
    intro i
    have h0 := (eq_zero_iff_testBit _).mp hov i
    rw [Nat.testBit_land, Nat.testBit_land, Nat.testBit_xor,
      Nat.testBit_land, Nat.testBit_land] at h0
    rw [Nat.testBit_land, Nat.testBit_land, Nat.testBit_xor]
    revert h0
    cases hb1 : H1.testBit i <;> cases hb2 : H2.testBit i <;>
      cases hm1 : ((classifier_lookup c H1 0).2).testBit i <;>
      cases hm2 : ((classifier_lookup c H2 0).2).testBit i <;>
      intro h0 <;> simp_all
  have heq := classifier_lookup_bisim c H1 H2 0 hflows
  have hM : (classifier_lookup c H1 0).2 = (classifier_lookup c H2 0).2 := by
    rw [heq]
  refine ⟨?_, hM⟩
  rw [← hM]
  rw [← hM, Nat.and_self] at hflows
  apply Nat.eq_of_testBit_eq
  intro i
  rw [Nat.testBit_land, Nat.testBit_land]
  have h0 := (eq_zero_iff_testBit _).mp hflows i
  rw [Nat.testBit_land, Nat.testBit_xor] at h0
  revert h0
  cases hb1 : H1.testBit i <;> cases hb2 : H2.testBit i <;>
    cases hm : ((classifier_lookup c H1 0).2).testBit i <;>
    intro h0 <;> simp_all

/-- Witness for C3 at two concrete flows against a concrete classifier. -/
theorem megaflow_non_overlap_witness :
    13 &&& (classifier_lookup [⟨5, 7, 9⟩] 13 0).2 =
        29 &&& (classifier_lookup [⟨5, 7, 9⟩] 29 0).2 ∧
      (classifier_lookup [⟨5, 7, 9⟩] 13 0).2 = (classifier_lookup [⟨5, 7, 9⟩] 29 0).2 :=
  megaflow_non_overlap [⟨5, 7, 9⟩] 13 29 (by decide)

/-- C8: on an empty classifier, lookup returns `none` for every flow and
hands the caller's wildcards buffer back unchanged; in general every bit
already set in the wildcards buffer is still set afterwards — the buffer is
only OR-accumulated into, never cleared. -/
theorem classifier_lookup_empty_and_accum :
    (∀ F W, classifier_lookup [] F W = (none, W)) ∧
    (∀ c F W i, W.testBit i = true → ((classifier_lookup c F W).2).testBit i = true) := by
  constructor
  · intro F W
    rfl
  · intro c F W i h
    exact walk_W_mono F (List.insertionSort stGE (subtablesOf c)) none W i h

/-- Witness for C8: empty classifier misses, and wildcard bits survive a
nonempty lookup. -/
theorem classifier_lookup_empty_and_accum_witness :
    classifier_lookup [] 3 5 = (none, 5) ∧
      ((classifier_lookup [⟨5, 7, 9⟩] 13 4).2).testBit 2 = true :=
  ⟨classifier_lookup_empty_and_accum.1 3 5,
    classifier_lookup_empty_and_accum.2 [⟨5, 7, 9⟩] 13 4 2 (by decide)⟩

/-! ### Insert, replace, remove, exact find

Modelled from the spec §4.5 and the declarations in classifier.h:291-294,
306-307.  The classifier state is the installed rule set. -/

/-- Rule identity used by replace/remove/exact find: identical value, mask
and priority (spec §4.5 "find_rule_exactly"). -/
def sameRule (a b : CRule) : Bool :=
  a.value == b.value && a.mask == b.mask && a.prio == b.prio

/-- Modelled from the spec: `classifier_find_rule_exactly`
(classifier.h:306-307): the installed rule with identical
(value, mask, priority), or none. -/
def classifier_find_rule_exactly (c : List CRule) (r : CRule) : Option CRule :=
  c.find? (sameRule r)

/-- Modelled from the spec: `classifier_replace` (classifier.h:292, spec
§4.5): install the rule, displacing an identical rule if present; the
displaced rule is returned. -/
def classifier_replace (c : List CRule) (r : CRule) : List CRule × Option CRule :=
  (r :: c.eraseP (sameRule r), c.find? (sameRule r))

/-- Modelled from classifier.h:291: `void classifier_insert(...)` — same
state effect as replace; the declared return type is `void`, so only the
new state is produced. -/
def classifier_insert (c : List CRule) (r : CRule) : List CRule :=
  (classifier_replace c r).1

/-- Modelled from classifier.h:291: what `classifier_insert` hands back to
the caller.  The declaration returns `void`, so nothing is ever returned
(the displaced duplicate is destroyed, per the spec's interface table). -/
def classifier_insert_returned (_c : List CRule) (_r : CRule) : Option CRule :=
  none

/-- Modelled from the spec: `classifier_remove` (classifier.h:294, spec
§4.5): unlink the rule and hand the detached rule back. -/
def classifier_remove (c : List CRule) (r : CRule) : List CRule × Option CRule :=
  (c.eraseP (sameRule r), c.find? (sameRule r))

theorem sameRule_self (r : CRule) : sameRule r r = true := by
  simp [sameRule]

theorem countP_eraseP_self {p : CRule → Bool} {l : List CRule} (h : l.countP p ≤ 1) :
    (l.eraseP p).countP p = 0 := by
  induction l with
  | nil => rfl
  | cons x xs ih =>
    by_cases hx : p x
    · rw [List.eraseP_cons_of_pos hx]
      rw [List.countP_cons, hx, if_pos rfl] at h
      omega
    · rw [List.eraseP_cons_of_neg (by simpa using hx), List.countP_cons]
      rw [List.countP_cons] at h
      simp only [hx, if_neg, Bool.false_eq_true, not_false_iff, if_false] at h ⊢
      have := ih (by omega)
      omega

/-- C4 counterexample: the claim says `classifier_insert` returns the
displaced duplicate to the caller; but the header declares
`void classifier_insert(...)` (classifier.h:291), so even with a duplicate
installed nothing is returned. -/
theorem classifier_insert_returns_nothing_cex :
    classifier_find_rule_exactly [⟨5, 7, 9⟩] ⟨5, 7, 9⟩ = some ⟨5, 7, 9⟩ ∧
      classifier_insert_returned [⟨5, 7, 9⟩] ⟨5, 7, 9⟩ ≠ some (⟨5, 7, 9⟩ : CRule) := by
  constructor
  · rfl
  · intro h
    cases h

/-- C4 (amended): `classifier_insert` installs the rule, displacing an
identical (value, mask, priority) rule if one is installed; the displaced
duplicate is destroyed, not returned — insert returns nothing in every
case, and `classifier_replace` is the variant returning the prior object.
When no duplicate is present, insert simply installs the rule. -/
theorem classifier_insert_spec (c : List CRule) (r : CRule)
    (huniq : c.countP (sameRule r) ≤ 1) :
    classifier_insert_returned c r = none ∧
    classifier_insert c r = (classifier_replace c r).1 ∧
    (classifier_replace c r).2 = classifier_find_rule_exactly c r ∧
    r ∈ classifier_insert c r ∧
    (∀ q, sameRule r q = false → (q ∈ classifier_insert c r ↔ q ∈ c)) ∧
    (classifier_insert c r).countP (sameRule r) = 1 ∧
    (classifier_find_rule_exactly c r = none → classifier_insert c r = r :: c) := by
  refine ⟨rfl, rfl, rfl, List.mem_cons_self _ _, ?_, ?_, ?_⟩
  · intro q hq
    constructor
    · intro hmem
      rcases List.mem_cons.mp hmem with h | h
      · subst h
        rw [sameRule_self] at hq
        cases hq
      · exact (List.eraseP_sublist c).mem h
    · intro hmem
      apply List.mem_cons_of_mem
      exact (List.mem_eraseP_of_neg (by simp [hq])).mpr hmem
  · rw [show classifier_insert c r = r :: c.eraseP (sameRule r) from rfl]
    rw [List.countP_cons, sameRule_self, if_pos rfl, countP_eraseP_self huniq]
  · intro hnone
    rw [show classifier_insert c r = r :: c.eraseP (sameRule r) from rfl]
    rw [List.eraseP_of_forall_not]
    intro a ha
    have := List.find?_eq_none.mp hnone a ha
    simpa using this

/-- Witness for C4 (amended) at a concrete classifier containing a
duplicate of the inserted rule. -/
theorem classifier_insert_spec_witness :
    classifier_insert_returned [⟨5, 7, 9⟩, ⟨1, 3, 4⟩] ⟨5, 7, 9⟩ = none ∧
    classifier_insert [⟨5, 7, 9⟩, ⟨1, 3, 4⟩] ⟨5, 7, 9⟩ =
      (classifier_replace [⟨5, 7, 9⟩, ⟨1, 3, 4⟩] ⟨5, 7, 9⟩).1 ∧
    (classifier_replace [⟨5, 7, 9⟩, ⟨1, 3, 4⟩] ⟨5, 7, 9⟩).2 =
      classifier_find_rule_exactly [⟨5, 7, 9⟩, ⟨1, 3, 4⟩] ⟨5, 7, 9⟩ ∧
    (⟨5, 7, 9⟩ : CRule) ∈ classifier_insert [⟨5, 7, 9⟩, ⟨1, 3, 4⟩] ⟨5, 7, 9⟩ ∧
    (∀ q, sameRule ⟨5, 7, 9⟩ q = false →
      (q ∈ classifier_insert [⟨5, 7, 9⟩, ⟨1, 3, 4⟩] ⟨5, 7, 9⟩ ↔ q ∈ [⟨5, 7, 9⟩, ⟨1, 3, 4⟩])) ∧
    (classifier_insert [⟨5, 7, 9⟩, ⟨1, 3, 4⟩] ⟨5, 7, 9⟩).countP (sameRule ⟨5, 7, 9⟩) = 1 ∧
    (classifier_find_rule_exactly [⟨5, 7, 9⟩, ⟨1, 3, 4⟩] ⟨5, 7, 9⟩ = none →
      classifier_insert [⟨5, 7, 9⟩, ⟨1, 3, 4⟩] ⟨5, 7, 9⟩ = ⟨5, 7, 9⟩ :: [⟨5, 7, 9⟩, ⟨1, 3, 4⟩]) :=
  classifier_insert_spec [⟨5, 7, 9⟩, ⟨1, 3, 4⟩] ⟨5, 7, 9⟩ (by decide)

/-- C6: round-trip.  If no rule identical to `r` is installed, inserting
`r` and then removing it restores the prior rule set exactly (hence the
same lookup results), and the remove hands `r` back. -/
theorem insert_remove_roundtrip (c : List CRule) (r : CRule)
    (h : classifier_find_rule_exactly c r = none) :
    (classifier_remove (classifier_insert c r) r).1 = c ∧
    (classifier_remove (classifier_insert c r) r).2 = some r ∧
    ∀ F W, classifier_lookup (classifier_remove (classifier_insert c r) r).1 F W =
      classifier_lookup c F W := by
  have herase : c.eraseP (sameRule r) = c := by
    apply List.eraseP_of_forall_not
    intro a ha
    have := List.find?_eq_none.mp h a ha
    simpa using this
  have hins : classifier_insert c r = r :: c := by
    rw [show classifier_insert c r = r :: c.eraseP (sameRule r) from rfl, herase]
  refine ⟨?_, ?_, ?_⟩
  · rw [show (classifier_remove (classifier_insert c r) r).1 =
      (classifier_insert c r).eraseP (sameRule r) from rfl, hins,
      List.eraseP_cons_of_pos (sameRule_self r)]
  · rw [show (classifier_remove (classifier_insert c r) r).2 =
      (classifier_insert c r).find? (sameRule r) from rfl, hins,
      List.find?_cons_of_pos _ (sameRule_self r)]
  · intro F W
    rw [show (classifier_remove (classifier_insert c r) r).1 =
      (classifier_insert c r).eraseP (sameRule r) from rfl, hins,
      List.eraseP_cons_of_pos (sameRule_self r)]

/-- Witness for C6 at a concrete prior state and rule. -/
theorem insert_remove_roundtrip_witness :
    (classifier_remove (classifier_insert [⟨1, 3, 5⟩] ⟨5, 7, 9⟩) ⟨5, 7, 9⟩).1 = [⟨1, 3, 5⟩] ∧
    (classifier_remove (classifier_insert [⟨1, 3, 5⟩] ⟨5, 7, 9⟩) ⟨5, 7, 9⟩).2 =
      some ⟨5, 7, 9⟩ ∧
    ∀ F W, classifier_lookup
        (classifier_remove (classifier_insert [⟨1, 3, 5⟩] ⟨5, 7, 9⟩) ⟨5, 7, 9⟩).1 F W =
      classifier_lookup [⟨1, 3, 5⟩] F W :=
  insert_remove_roundtrip [⟨1, 3, 5⟩] ⟨5, 7, 9⟩ (by decide)

/-! ### Overlap testing -/

/-- Modelled from the spec: `classifier_rule_overlaps`
(classifier.h:303-304, spec §4.5): true iff some installed rule of the
same priority overlaps the argument, where overlap of rules with values
`v1, v2` and masks `m1, m2` is `(v1 XOR v2) AND (m1 AND m2) == 0`. -/
def classifier_rule_overlaps (c : List CRule) (r : CRule) : Bool :=
  c.any (fun q => q.prio == r.prio && ((r.value ^^^ q.value) &&& (r.mask &&& q.mask) == 0))

/-- A rule is canonical when its value has no bits outside its mask
(spec §3, match invariant: "bits not set in mask must be zero in
value"). -/
def canonicalRule (r : CRule) : Prop :=
  r.value &&& r.mask = r.value

instance : DecidablePred canonicalRule :=
  fun r => Nat.decEq (r.value &&& r.mask) r.value

theorem canonical_testBit {r : CRule} (h : canonicalRule r) {i : Nat}
    (hv : r.value.testBit i = true) : r.mask.testBit i = true := by
  have hc := congrArg (fun n => n.testBit i) h
  simp only [Nat.testBit_land, hv, Bool.true_and] at hc
  exact hc

/-- The masked overlap criterion holds exactly when some concrete flow
matches both rules (for canonical rules). -/
theorem overlap_iff_common_flow (r q : CRule)
    (hr : canonicalRule r) (hq : canonicalRule q) :
    (r.value ^^^ q.value) &&& (r.mask &&& q.mask) = 0 ↔
      ∃ F, ruleMatches r F = true ∧ ruleMatches q F = true := by
  constructor
  · intro h
    have hag := (maskAgree_iff r.value q.value (r.mask &&& q.mask)).mp h
    refine ⟨r.value ||| q.value, ?_, ?_⟩
    · simp only [ruleMatches, beq_iff_eq]
      rw [eq_zero_iff_testBit]
      intro i
      rw [Nat.testBit_land, Nat.testBit_xor, Nat.testBit_lor]
      cases hrm : r.mask.testBit i
      · rw [Bool.and_false]
      · rw [Bool.and_true]
        cases hrv : r.value.testBit i
        · cases hqv : q.value.testBit i
          · rfl
          · have hqm := canonical_testBit hq hqv
            have hcontra := hag i (by rw [Nat.testBit_land, hrm, hqm, Bool.and_true])
            rw [hrv, hqv] at hcontra
            cases hcontra
        · rfl
    · simp only [ruleMatches, beq_iff_eq]
      rw [eq_zero_iff_testBit]
      intro i
      rw [Nat.testBit_land, Nat.testBit_xor, Nat.testBit_lor]
      cases hqm : q.mask.testBit i
      · rw [Bool.and_false]
      · rw [Bool.and_true]
        cases hqv : q.value.testBit i
        · cases hrv : r.value.testBit i
          · rfl
          · have hrm := canonical_testBit hr hrv
            have hcontra := hag i (by rw [Nat.testBit_land, hrm, hqm, Bool.and_true])
            rw [hrv, hqv] at hcontra
            cases hcontra
        · simp
  · rintro ⟨F, hF1, hF2⟩
    simp only [ruleMatches, beq_iff_eq] at hF1 hF2
    have hag1 := (maskAgree_iff F r.value r.mask).mp hF1
    have hag2 := (maskAgree_iff F q.value q.mask).mp hF2
    rw [eq_zero_iff_testBit]
    intro i
    rw [Nat.testBit_land, Nat.testBit_xor, Nat.testBit_land]
    cases hrm : r.mask.testBit i
    · rw [Bool.false_and, Bool.and_false]
    · cases hqm : q.mask.testBit i
      · rw [Bool.and_false, Bool.and_false]
      · rw [← hag1 i hrm, ← hag2 i hqm]
        simp

/-- C5: `classifier_rule_overlaps(rule)` returns true iff some installed
rule of the same priority overlaps it — both in the code's masked-bit
formulation `(v1 XOR v2) AND (m1 AND m2) == 0` and semantically (some
concrete flow matches both rules); rules of differing priority are never
reported. -/
theorem classifier_rule_overlaps_correct (c : List CRule) (r : CRule)
    (hr : canonicalRule r) (hc : ∀ q ∈ c, canonicalRule q) :
    (classifier_rule_overlaps c r = true ↔
      ∃ q ∈ c, q.prio = r.prio ∧ (r.value ^^^ q.value) &&& (r.mask &&& q.mask) = 0) ∧
    (classifier_rule_overlaps c r = true ↔
      ∃ q ∈ c, q.prio = r.prio ∧ ∃ F, ruleMatches r F = true ∧ ruleMatches q F = true) := by
  have hbit : classifier_rule_overlaps c r = true ↔
      ∃ q ∈ c, q.prio = r.prio ∧ (r.value ^^^ q.value) &&& (r.mask &&& q.mask) = 0 := by
    unfold classifier_rule_overlaps
    rw [List.any_eq_true]
    constructor
    · rintro ⟨q, hqmem, hq⟩
      rw [Bool.and_eq_true, beq_iff_eq, beq_iff_eq] at hq
      exact ⟨q, hqmem, hq.1, hq.2⟩
    · rintro ⟨q, hqmem, hp, hov⟩
      exact ⟨q, hqmem, by rw [Bool.and_eq_true, beq_iff_eq, beq_iff_eq]; exact ⟨hp, hov⟩⟩
  refine ⟨hbit, hbit.trans ?_⟩
  constructor
  · rintro ⟨q, hqmem, hp, hov⟩
    exact ⟨q, hqmem, hp, (overlap_iff_common_flow r q hr (hc q hqmem)).mp hov⟩
  · rintro ⟨q, hqmem, hp, hF⟩
    exact ⟨q, hqmem, hp, (overlap_iff_common_flow r q hr (hc q hqmem)).mpr hF⟩

/-- Witness for C5 at a concrete classifier and rule. -/
theorem classifier_rule_overlaps_correct_witness :
    (classifier_rule_overlaps [⟨5, 7, 9⟩] ⟨1, 3, 9⟩ = true ↔
      ∃ q ∈ [(⟨5, 7, 9⟩ : CRule)], q.prio = (⟨1, 3, 9⟩ : CRule).prio ∧
        ((⟨1, 3, 9⟩ : CRule).value ^^^ q.value) &&&
          ((⟨1, 3, 9⟩ : CRule).mask &&& q.mask) = 0) ∧
    (classifier_rule_overlaps [⟨5, 7, 9⟩] ⟨1, 3, 9⟩ = true ↔
      ∃ q ∈ [(⟨5, 7, 9⟩ : CRule)], q.prio = (⟨1, 3, 9⟩ : CRule).prio ∧
        ∃ F, ruleMatches ⟨1, 3, 9⟩ F = true ∧ ruleMatches q F = true) :=
  classifier_rule_overlaps_correct [⟨5, 7, 9⟩] ⟨1, 3, 9⟩ (by decide) (by decide)

/-! ### Batched lookup -/

/-- Modelled from the spec: `classifier_lookup_miniflow_batch`
(classifier.h:298-302, spec §4.5): per-flow lookups (miniflow lookups do
not fill wildcards), collecting each slot's result and whether every slot
matched. -/
def classifier_lookup_miniflow_batch (c : List CRule) (flows : List Nat) :
    List (Option CRule) × Bool :=
  flows.foldr
    (fun F acc =>
      let res := (classifier_lookup c F 0).1
      (res :: acc.1, res.isSome && acc.2))
    ([], true)

/-- C7: the batched lookup on at most 256 miniflows fills each output slot
with exactly the result of a single lookup on that flow, and returns true
iff every slot matched. -/
theorem classifier_lookup_miniflow_batch_correct (c : List CRule) (flows : List Nat)
    (_hn : flows.length ≤ 256) :
    (classifier_lookup_miniflow_batch c flows).1 =
      flows.map (fun F => (classifier_lookup c F 0).1) ∧
    ((classifier_lookup_miniflow_batch c flows).2 = true ↔
      ∀ F ∈ flows, ((classifier_lookup c F 0).1).isSome = true) := by
  clear _hn
  induction flows with
  | nil => exact ⟨rfl, by simp [classifier_lookup_miniflow_batch]⟩
  | cons F rest ih =>
    unfold classifier_lookup_miniflow_batch at ih ⊢
    rw [List.foldr_cons, List.map_cons]
    refine ⟨?_, ?_⟩
    · simp only [ih.1]
    · rw [Bool.and_eq_true]
      constructor
      · rintro ⟨h1, h2⟩ G hG
        rcases List.mem_cons.mp hG with h | h
        · subst h; exact h1
        · exact ih.2.mp h2 G h
      · intro h
        exact ⟨h F (List.mem_cons_self _ _),
          ih.2.mpr fun G hG => h G (List.mem_cons_of_mem _ hG)⟩

/-- Witness for C7 at a concrete batch. -/
theorem classifier_lookup_miniflow_batch_correct_witness :
    (classifier_lookup_miniflow_batch [⟨5, 7, 9⟩] [13, 2]).1 =
      [13, 2].map (fun F => (classifier_lookup [⟨5, 7, 9⟩] F 0).1) ∧
    ((classifier_lookup_miniflow_batch [⟨5, 7, 9⟩] [13, 2]).2 = true ↔
      ∀ F ∈ [13, 2], ((classifier_lookup [⟨5, 7, 9⟩] F 0).1).isSome = true) :=
  classifier_lookup_miniflow_batch_correct [⟨5, 7, 9⟩] [13, 2] (by decide)

/-! ### The cls_match back-pointer (C10)

classifier.h:262 documents `struct cls_match *cls_match;` as "NULL if rule
is not in a classifier".  The bodies maintaining it live in classifier.c
(absent), so the maintenance is modelled from the spec's lifecycle
description (§3 "Lifecycles", §4.5).  Rule objects are identified by an
id; we track for each object whether its back-pointer is non-NULL, and
which objects the classifier currently holds. -/

/-- A user-owned `cls_rule` object: identity, match data, and whether its
`cls_match` back-pointer is non-NULL (classifier.h:259-263). -/
structure RuleObj where
  rid : Nat
  value : Nat
  mask : Nat
  prio : Nat
  cls_match : Bool
deriving DecidableEq

/-- The world state: every constructed rule object, plus the ids of the
objects currently installed in the classifier. -/
structure CWorld where
  objs : List RuleObj
  installed : List Nat
deriving DecidableEq

def emptyWorld : CWorld := ⟨[], []⟩

/-- Modelled from the spec: rule construction (`cls_rule_init`) leaves the
back-pointer NULL; the fresh object gets the next unused id. -/
def wmake (s : CWorld) (v m p : Nat) : CWorld :=
  { s with objs := s.objs ++ [⟨s.objs.length, v, m, p, false⟩] }

/-- Set or clear the back-pointer of the object with id `i`. -/
def setMatch (objs : List RuleObj) (i : Nat) (b : Bool) : List RuleObj :=
  objs.map (fun o => if o.rid = i then { o with cls_match := b } else o)

def findObj (s : CWorld) (i : Nat) : Option RuleObj :=
  s.objs.find? (fun o => o.rid == i)

/-- The installed duplicate displaced by inserting `o`: an installed
object with identical value, mask and priority. -/
def dupId (s : CWorld) (o : RuleObj) : Option Nat :=
  s.installed.find? (fun j =>
    match findObj s j with
    | some d => d.value == o.value && d.mask == o.mask && d.prio == o.prio
    | none => false)

/-- Link rule object `i`, after unlinking the displaced duplicate (if
any): the duplicate's back-pointer is cleared and it leaves the installed
set; the inserted rule's back-pointer is set. -/
def winsert2 (s : CWorld) (i : Nat) : Option Nat → CWorld
  | some j => ⟨setMatch (setMatch s.objs j false) i true, i :: s.installed.erase j⟩
  | none => ⟨setMatch s.objs i true, i :: s.installed⟩

/-- Modelled from the spec: `classifier_insert`/`classifier_replace` at
the back-pointer level — the displaced duplicate (if any) is unlinked and
its back-pointer cleared; the inserted rule is linked and its back-pointer
set. -/
def winsert (s : CWorld) (i : Nat) : CWorld :=
  match findObj s i with
  | none => s
  | some o => winsert2 s i (dupId s o)

/-- Modelled from the spec: `classifier_remove` at the back-pointer
level — clear the removed rule's back-pointer and unlink it; removing an
absent rule is a no-op (returns none). -/
def wremove (s : CWorld) (i : Nat) : CWorld :=
  if s.installed.contains i then ⟨setMatch s.objs i false, s.installed.erase i⟩ else s

/-- A classifier operation acting on rule objects. -/
inductive WOp where
  | make (v m p : Nat)
  | ins (i : Nat)
  | rm (i : Nat)
deriving DecidableEq

def wstep (s : CWorld) : WOp → CWorld
  | .make v m p => wmake s v m p
  | .ins i => winsert s i
  | .rm i => wremove s i

def wexec (s : CWorld) : List WOp → CWorld
  | [] => s
  | op :: ops => wexec (wstep s op) ops

/-- Valid operation sequences: every insert names a constructed rule
object that is not currently installed (inserting an installed cls_rule
is a contract violation, spec §7). -/
def wvalid (s : CWorld) : List WOp → Bool
  | [] => true
  | .make v m p :: ops => wvalid (wmake s v m p) ops
  | .ins i :: ops =>
      s.objs.any (fun o => o.rid == i) && !(s.installed.contains i) &&
        wvalid (winsert s i) ops
  | .rm i :: ops => wvalid (wremove s i) ops

/-- The back-pointer invariant plus the bookkeeping that sustains it. -/
def WInv (s : CWorld) : Prop :=
  s.installed.Nodup ∧
  (∀ o ∈ s.objs, o.rid < s.objs.length) ∧
  (∀ j ∈ s.installed, j < s.objs.length) ∧
  (∀ o ∈ s.objs, (o.cls_match = true ↔ o.rid ∈ s.installed))

theorem length_setMatch (objs : List RuleObj) (i : Nat) (b : Bool) :
    (setMatch objs i b).length = objs.length :=
  List.length_map _ _

theorem winv_unlink {s : CWorld} (h : WInv s) (i : Nat) :
    WInv ⟨setMatch s.objs i false, s.installed.erase i⟩ := by
  obtain ⟨hnd, hbound, hibound, hflag⟩ := h
  refine ⟨hnd.erase i, ?_, ?_, ?_⟩
  · intro o' ho'
    rcases List.mem_map.mp ho' with ⟨o, ho, rfl⟩
    rw [length_setMatch]
    by_cases hi : o.rid = i
    · rw [if_pos hi]
      exact hbound o ho
    · rw [if_neg hi]
      exact hbound o ho
  · intro j hj
    rw [length_setMatch]
    exact hibound j (List.mem_of_mem_erase hj)
  · intro o' ho'
    rcases List.mem_map.mp ho' with ⟨o, ho, rfl⟩
    by_cases hi : o.rid = i
    · rw [if_pos hi]
      simp only [hi]
      constructor
      · intro hfalse
        cases hfalse
      · intro hmem
        rw [List.Nodup.mem_erase_iff hnd] at hmem
        exact absurd rfl hmem.1
    · rw [if_neg hi]
      rw [hflag o ho]
      exact (List.mem_erase_of_ne hi).symm

theorem winv_link {s : CWorld} (h : WInv s) {i : Nat}
    (hobj : ∃ o ∈ s.objs, o.rid = i) (hnotin : i ∉ s.installed) :
    WInv ⟨setMatch s.objs i true, i :: s.installed⟩ := by
  obtain ⟨hnd, hbound, hibound, hflag⟩ := h
  refine ⟨List.nodup_cons.mpr ⟨hnotin, hnd⟩, ?_, ?_, ?_⟩
  · intro o' ho'
    rcases List.mem_map.mp ho' with ⟨o, ho, rfl⟩
    rw [length_setMatch]
    by_cases hi : o.rid = i
    · rw [if_pos hi]
      exact hbound o ho
    · rw [if_neg hi]
      exact hbound o ho
  · intro j hj
    rw [length_setMatch]
    rcases List.mem_cons.mp hj with h | h
    · subst h
      rcases hobj with ⟨o, ho, rfl⟩
      exact hbound o ho
    · exact hibound j h
  · intro o' ho'
    rcases List.mem_map.mp ho' with ⟨o, ho, rfl⟩
    by_cases hi : o.rid = i
    · simp [hi]
    · rw [if_neg hi]
      rw [hflag o ho]
      constructor
      · intro hmem
        exact List.mem_cons_of_mem _ hmem
      · intro hmem
        rcases List.mem_cons.mp hmem with h | h
        · exact absurd h hi
        · exact h

theorem winv_make {s : CWorld} (h : WInv s) (v m p : Nat) : WInv (wmake s v m p) := by
  obtain ⟨hnd, hbound, hibound, hflag⟩ := h
  refine ⟨hnd, ?_, ?_, ?_⟩
  · intro o ho
    rw [wmake] at ho ⊢
    simp only [List.length_append, List.length_cons, List.length_nil]
    rcases List.mem_append.mp ho with h | h
    · exact Nat.lt_succ_of_lt (hbound o h)
    · rcases List.mem_cons.mp h with h | h
      · subst h
        exact Nat.lt_succ_self _
      · cases h
  · intro j hj
    rw [wmake]
    simp only [List.length_append, List.length_cons, List.length_nil]
    exact Nat.lt_succ_of_lt (hibound j hj)
  · intro o ho
    rw [wmake] at ho
    rcases List.mem_append.mp ho with h | h
    · exact hflag o h
    · rcases List.mem_cons.mp h with h | h
      · subst h
        simp only []
        constructor
        · intro hfalse
          cases hfalse
        · intro hmem
          exact absurd (hibound _ hmem) (Nat.lt_irrefl _)
      · cases h

theorem winsert_eq {s : CWorld} {i : Nat} {o : RuleObj} (ho : findObj s i = some o) :
    winsert s i = winsert2 s i (dupId s o) := by
  unfold winsert
  rw [ho]

theorem winv_insert {s : CWorld} (h : WInv s) {i : Nat}
    (hobj : s.objs.any (fun o => o.rid == i) = true)
    (hnotin : s.installed.contains i = false) : WInv (winsert s i) := by
  have hobj' : ∃ o ∈ s.objs, o.rid = i := by
    rcases List.any_eq_true.mp hobj with ⟨o, ho, hb⟩
    exact ⟨o, ho, by simpa using hb⟩
  have hnotin' : i ∉ s.installed := by
    intro hmem
    rw [List.contains_eq_any_beq] at hnotin
    have : s.installed.any (fun j => i == j) = true :=
      List.any_eq_true.mpr ⟨i, hmem, by simp⟩
    rw [this] at hnotin
    cases hnotin
  cases hfo : findObj s i with
  | none =>
    rcases hobj' with ⟨o, ho, hrid⟩
    have := List.find?_eq_none.mp hfo o ho
    simp [hrid] at this
  | some o =>
    rw [winsert_eq hfo]
    cases hd : dupId s o with
    | none => exact winv_link h hobj' hnotin'
    | some j =>
      have ht : WInv ⟨setMatch s.objs j false, s.installed.erase j⟩ := winv_unlink h j
      have hobj'' : ∃ o' ∈ setMatch s.objs j false, o'.rid = i := by
        rcases hobj' with ⟨o0, ho0, hrid⟩
        refine ⟨(fun q => if q.rid = j then { q with cls_match := false } else q) o0,
          List.mem_map.mpr ⟨o0, ho0, rfl⟩, ?_⟩
        show (if o0.rid = j then { o0 with cls_match := false } else o0).rid = i
        by_cases hj0 : o0.rid = j
        · rw [if_pos hj0]
          exact hrid
        · rw [if_neg hj0]
          exact hrid
      have hnotin'' : i ∉ s.installed.erase j := fun hmem =>
        hnotin' (List.mem_of_mem_erase hmem)
      exact winv_link ht hobj'' hnotin''

theorem winv_remove {s : CWorld} (h : WInv s) (i : Nat) : WInv (wremove s i) := by
  unfold wremove
  by_cases hc : s.installed.contains i = true
  · rw [if_pos hc]
    exact winv_unlink h i
  · rw [if_neg hc]
    exact h

theorem winv_step {s : CWorld} {op : WOp} (h : WInv s)
    (hv : ∀ i, op = WOp.ins i →
      s.objs.any (fun o => o.rid == i) = true ∧ s.installed.contains i = false) :
    WInv (wstep s op) := by
  cases op with
  | make v m p => exact winv_make h v m p
  | ins i =>
    obtain ⟨h1, h2⟩ := hv i rfl
    exact winv_insert h h1 h2
  | rm i => exact winv_remove h i

theorem winv_exec {s : CWorld} {ops : List WOp} (h : WInv s) (hv : wvalid s ops = true) :
    WInv (wexec s ops) := by
  induction ops generalizing s with
  | nil => exact h
  | cons op rest ih =>
    cases op with
    | make v m p =>
      rw [show wexec s (WOp.make v m p :: rest) = wexec (wmake s v m p) rest from rfl]
      exact ih (winv_make h v m p) hv
    | ins i =>
      rw [show wvalid s (WOp.ins i :: rest) =
        (s.objs.any (fun o => o.rid == i) && !(s.installed.contains i) &&
          wvalid (winsert s i) rest) from rfl] at hv
      rw [Bool.and_eq_true, Bool.and_eq_true] at hv
      obtain ⟨⟨h1, h2⟩, h3⟩ := hv
      rw [show wexec s (WOp.ins i :: rest) = wexec (winsert s i) rest from rfl]
      refine ih (winv_insert h h1 ?_) h3
      cases hc : s.installed.contains i
      · rfl
      · rw [hc] at h2
        cases h2
    | rm i =>
      rw [show wexec s (WOp.rm i :: rest) = wexec (wremove s i) rest from rfl]
      exact ih (winv_remove h i) hv

theorem winv_empty : WInv emptyWorld := by
  refine ⟨List.nodup_nil, ?_, ?_, ?_⟩ <;> intro x hx <;> cases hx

/-- C10: the `cls_match` back-pointer is NULL exactly when the rule is
not installed.  Under any valid sequence of rule constructions, inserts
(with duplicate displacement) and removes starting from the empty world,
every rule object's back-pointer is non-NULL iff the object is currently
installed in the classifier. -/
theorem cls_match_iff_installed (ops : List WOp) (hv : wvalid emptyWorld ops = true) :
    ∀ o ∈ (wexec emptyWorld ops).objs,
      (o.cls_match = true ↔ o.rid ∈ (wexec emptyWorld ops).installed) :=
  (winv_exec winv_empty hv).2.2.2

/-- Witness for C10: a run with construction, insert, duplicate
displacement and removal, checked at the first rule object. -/
theorem cls_match_iff_installed_witness :
    ((⟨0, 5, 7, 9, false⟩ : RuleObj).cls_match = true ↔
      (⟨0, 5, 7, 9, false⟩ : RuleObj).rid ∈ (wexec emptyWorld
        [WOp.make 5 7 9, WOp.ins 0, WOp.make 5 7 9, WOp.ins 1, WOp.rm 1]).installed) :=
  cls_match_iff_installed [WOp.make 5 7 9, WOp.ins 0, WOp.make 5 7 9, WOp.ins 1, WOp.rm 1]
    (by decide) ⟨0, 5, 7, 9, false⟩ (by decide)

/-! ### Prefix tries (C9)

`struct cls_trie` (classifier.h:230-237) holds the field and the root
pointer; the node structure and the insert/remove/lookup bodies live in
classifier.c (absent).  The trie is therefore modelled from the spec
(§3 "Trie", §4.2): nodes carry a compressed edge bit-string, a rule
count incremented on every node visited by an insert, and two children;
prefixes are MSB-first lists of bits. -/

/-- A compressed binary prefix-trie node (modelled from spec §3): edge
bit-string into this node, cumulative rule count, two children (indexed
by the first bit of the child's edge). -/
inductive Trie where
  | nil : Trie
  | node (edge : List Bool) (count : Nat) (l r : Trie) : Trie
deriving DecidableEq

/-- Root count (0 for the absent trie). -/
def Trie.rc : Trie → Nat
  | .nil => 0
  | .node _ c _ _ => c

/-- First bit of the root edge. -/
def Trie.hd : Trie → Option Bool
  | .nil => none
  | .node e _ _ _ => e.head?

/-- Longest-common-prefix split: `lcp p e = (q, pr, er)` with
`p = q ++ pr`, `e = q ++ er`, and `pr`, `er` starting with distinct bits
when both are nonempty. -/
def lcp : List Bool → List Bool → List Bool × List Bool × List Bool
  | [], e => ([], [], e)
  | a :: p, [] => ([], a :: p, [])
  | a :: p, b :: e =>
    if a = b then
      let t := lcp p e
      (a :: t.1, t.2.1, t.2.2)
    else ([], a :: p, b :: e)

theorem lcp_app₁ (p e : List Bool) : p = (lcp p e).1 ++ (lcp p e).2.1 := by
  induction p generalizing e with
  | nil => cases e <;> rfl
  | cons a p ih =>
    cases e with
    | nil => rfl
    | cons b e =>
      by_cases h : a = b
      · simp only [lcp, if_pos h, List.cons_append]
        rw [← ih e]
      · simp [lcp, if_neg h]

theorem lcp_app₂ (p e : List Bool) : e = (lcp p e).1 ++ (lcp p e).2.2 := by
  induction p generalizing e with
  | nil => cases e <;> rfl
  | cons a p ih =>
    cases e with
    | nil => rfl
    | cons b e =>
      by_cases h : a = b
      · simp only [lcp, if_pos h, List.cons_append]
        rw [h, ← ih e]
      · simp [lcp, if_neg h]

theorem lcp_ne {p e : List Bool} {a b : Bool} {pr er : List Bool}
    (h1 : (lcp p e).2.1 = a :: pr) (h2 : (lcp p e).2.2 = b :: er) : a ≠ b := by
  induction p generalizing e with
  | nil => cases e <;> simp [lcp] at h1
  | cons x p ih =>
    cases e with
    | nil => simp [lcp] at h2
    | cons y e =>
      by_cases h : x = y
      · simp only [lcp, if_pos h] at h1 h2
        exact ih h1 h2
      · simp only [lcp, if_neg h] at h1 h2
        injection h1 with hx _
        injection h2 with hy _
        rw [← hx, ← hy]
        exact h

theorem lcp_hd {p e : List Bool} {b : Bool} (hp : p.head? = some b) (he : e.head? = some b) :
    (lcp p e).1.head? = some b := by
  cases p with
  | nil => cases hp
  | cons a p =>
    cases e with
    | nil => cases he
    | cons a' e =>
      simp only [List.head?_cons, Option.some.injEq] at hp he
      subst hp
      subst he
      simp [lcp]

theorem lcp_of_app (e y : List Bool) : lcp (e ++ y) e = (e, y, []) := by
  induction e with
  | nil =>
    cases y with
    | nil => rfl
    | cons a ys => rfl
  | cons a e ih => simp [lcp, ih]

theorem lcp_self (e : List Bool) : lcp e e = (e, [], []) := by
  have := lcp_of_app e []
  rwa [List.append_nil] at this

/-- Modelled from the spec (§4.2): trie insert — walk from the root
following the bits of the prefix, splitting compressed edges as needed to
land a node exactly at the prefix, incrementing the rule count on every
visited node (including internal ones). -/
def Trie.ins (p : List Bool) : Trie → Trie
  | .nil => .node p 1 .nil .nil
  | .node e c l r =>
    match lcp p e with
    | (q, pr, er) =>
      match er with
      | [] =>
        match pr with
        | [] => .node e (c + 1) l r
        | b :: rest =>
          if b then .node e (c + 1) l (Trie.ins (b :: rest) r)
          else .node e (c + 1) (Trie.ins (b :: rest) l) r
      | be :: erest =>
        match pr with
        | [] =>
          if be then .node p (c + 1) .nil (.node (be :: erest) c l r)
          else .node p (c + 1) (.node (be :: erest) c l r) .nil
        | bp :: prest =>
          if bp then
            .node q (c + 1) (.node (be :: erest) c l r) (.node (bp :: prest) 1 .nil .nil)
          else
            .node q (c + 1) (.node (bp :: prest) 1 .nil .nil) (.node (be :: erest) c l r)

/-- Modelled from the spec (§4.2): trie remove — symmetric to insert,
decrementing the count on every visited node; nodes left with zero count
and no children are reclaimed. -/
def Trie.rm (p : List Bool) : Trie → Trie
  | .nil => .nil
  | .node e c l r =>
    match lcp p e with
    | (_, pr, er) =>
      match er with
      | [] =>
        match pr with
        | [] =>
          if c - 1 = 0 ∧ l = Trie.nil ∧ r = Trie.nil then .nil
          else .node e (c - 1) l r
        | b :: rest =>
          let l' := if b then l else Trie.rm (b :: rest) l
          let r' := if b then Trie.rm (b :: rest) r else r
          if c - 1 = 0 ∧ l' = Trie.nil ∧ r' = Trie.nil then .nil
          else .node e (c - 1) l' r'
      | _ :: _ => .node e c l r

/-- Shape constraint of a child slot: absent, or its edge begins with the
slot's bit (so child edges are nonempty). -/
def childOk : Trie → Bool → Prop
  | .nil, _ => True
  | .node e _ _ _, b => e.head? = some b

/-- Structural well-formedness: counts dominate the children's counts and
are positive; child edges begin with the child slot's bit. -/
def Trie.WF : Trie → Prop
  | .nil => True
  | .node _ c l r =>
    l.rc + r.rc ≤ c ∧ 0 < c ∧ childOk l false ∧ childOk r true ∧ l.WF ∧ r.WF

/-- The multiset of prefixes stored in the trie: each node holds its count
minus its children's counts copies of its own path (counts are cumulative
per spec §4.2). -/
def Trie.contents : Trie → Multiset (List Bool)
  | .nil => 0
  | .node e c l r =>
    Multiset.replicate (c - (l.rc + r.rc)) e + (l.contents + r.contents).map (e ++ ·)

theorem rc_ins (t : Trie) (p : List Bool) : (t.ins p).rc = t.rc + 1 := by
  cases t with
  | nil => rfl
  | node e c l r =>
    unfold Trie.ins
    rcases hq : lcp p e with ⟨q, pr, er⟩
    cases er with
    | nil =>
      cases pr with
      | nil => rfl
      | cons b rest => cases b <;> rfl
    | cons be erest =>
      cases pr with
      | nil => cases be <;> rfl
      | cons bp prest => cases bp <;> rfl

theorem hd_ins_nil (p : List Bool) : (Trie.ins p .nil).hd = p.head? := rfl

theorem hd_ins_node {p e : List Bool} (c : Nat) (l r : Trie) (h : p.head? = e.head?) :
    ((Trie.node e c l r).ins p).hd = e.head? := by
  unfold Trie.ins
  rcases hq : lcp p e with ⟨q, pr, er⟩
  have hp : p = q ++ pr := by
    have := lcp_app₁ p e
    rwa [hq] at this
  have he : e = q ++ er := by
    have := lcp_app₂ p e
    rwa [hq] at this
  cases er with
  | nil =>
    cases pr with
    | nil => rfl
    | cons b rest => cases b <;> rfl
  | cons be erest =>
    cases pr with
    | nil =>
      cases q with
      | nil =>
        rw [hp, he] at h
        cases h
      | cons a q' =>
        rw [List.append_nil] at hp
        have hgoal : p.head? = e.head? := h
        cases be <;> simp [Trie.hd] <;> rw [hgoal, he]
    | cons bp prest =>
      cases q with
      | nil =>
        rw [hp, he] at h
        simp only [List.nil_append, List.head?_cons, Option.some.injEq] at h
        have := lcp_ne (p := p) (e := e) (by rw [hq]) (by rw [hq])
        exact absurd h this
      | cons a q' =>
        have hph : p.head? = some a := by
          rw [hp]
          rfl
        have heh : e.head? = some a := by
          rw [he]
          rfl
        cases bp <;> simp [Trie.hd] <;> rw [heh]

theorem card_contents {t : Trie} (h : t.WF) : Multiset.card t.contents = t.rc := by
  induction t with
  | nil => rfl
  | node e c l r ihl ihr =>
    obtain ⟨hle, _, _, _, hwl, hwr⟩ := h
    show Multiset.card
      (Multiset.replicate (c - (l.rc + r.rc)) e + (l.contents + r.contents).map (e ++ ·)) = c
    rw [Multiset.card_add, Multiset.card_replicate, Multiset.card_map, Multiset.card_add,
      ihl hwl, ihr hwr]
    omega

theorem rc_zero_nil {t : Trie} (h : t.WF) (hz : t.rc = 0) : t = Trie.nil := by
  cases t with
  | nil => rfl
  | node e c l r =>
    obtain ⟨_, hpos, _⟩ := h
    rw [show (Trie.node e c l r).rc = c from rfl] at hz
    omega

theorem contents_hd {t : Trie} {b : Bool} (h : t.hd = some b) :
    ∀ x ∈ t.contents, x.head? = some b := by
  cases t with
  | nil => cases h
  | node e c l r =>
    rw [show (Trie.node e c l r).hd = e.head? from rfl] at h
    cases e with
    | nil => cases h
    | cons a e' =>
      simp only [List.head?_cons, Option.some.injEq] at h
      subst h
      intro x hx
      rcases Multiset.mem_add.mp hx with hx | hx
      · rw [Multiset.eq_of_mem_replicate hx]
        rfl
      · rcases Multiset.mem_map.mp hx with ⟨y, _, rfl⟩
        rfl

theorem contents_ne_nil {t : Trie} {b : Bool} (h : t.hd = some b) :
    ∀ x ∈ t.contents, x ≠ [] := by
  intro x hx hcon
  have := contents_hd h x hx
  rw [hcon] at this
  cases this

theorem childOk_of_hd {t : Trie} {b : Bool} (h : t.hd = some b) : childOk t b := by
  cases t with
  | nil => trivial
  | node e c l r => exact h

theorem wf_ins : ∀ (t : Trie), t.WF → ∀ p, (t.ins p).WF := by
  intro t
  induction t with
  | nil =>
    intro _ p
    exact ⟨Nat.zero_le _, Nat.one_pos, trivial, trivial, trivial, trivial⟩
  | node e c l r ihl ihr =>
    intro hwf p
    obtain ⟨hle, hpos, hcl, hcr, hwl, hwr⟩ := hwf
    unfold Trie.ins
    rcases hq : lcp p e with ⟨q, pr, er⟩
    have hp : p = q ++ pr := by
      have := lcp_app₁ p e
      rwa [hq] at this
    have he : e = q ++ er := by
      have := lcp_app₂ p e
      rwa [hq] at this
    cases er with
    | nil =>
      cases pr with
      | nil => exact ⟨by omega, by omega, hcl, hcr, hwl, hwr⟩
      | cons b rest =>
        cases b
        · show Trie.WF (Trie.node e (c + 1) (Trie.ins (false :: rest) l) r)
          refine ⟨?_, by omega, ?_, hcr, ihl hwl _, hwr⟩
          · rw [rc_ins]
            show l.rc + 1 + r.rc ≤ c + 1
            omega
          · cases l with
            | nil => exact rfl
            | node el cl ll rl =>
              apply childOk_of_hd
              rw [hd_ins_node cl ll rl (by rw [hcl]; rfl)]
              exact hcl
        · show Trie.WF (Trie.node e (c + 1) l (Trie.ins (true :: rest) r))
          refine ⟨?_, by omega, hcl, ?_, hwl, ihr hwr _⟩
          · rw [rc_ins]
            show l.rc + (r.rc + 1) ≤ c + 1
            omega
          · cases r with
            | nil => exact rfl
            | node er' cr lr rr =>
              apply childOk_of_hd
              rw [hd_ins_node cr lr rr (by rw [hcr]; rfl)]
              exact hcr
    | cons be erest =>
      cases pr with
      | nil =>
        cases be
        · show Trie.WF
            (Trie.node p (c + 1) (Trie.node (false :: erest) c l r) Trie.nil)
          refine ⟨?_, by omega, rfl, trivial, ⟨hle, hpos, hcl, hcr, hwl, hwr⟩, trivial⟩
          show c + Trie.nil.rc ≤ c + 1
          show c + 0 ≤ c + 1
          omega
        · show Trie.WF
            (Trie.node p (c + 1) Trie.nil (Trie.node (true :: erest) c l r))
          refine ⟨?_, by omega, trivial, rfl, trivial, ⟨hle, hpos, hcl, hcr, hwl, hwr⟩⟩
          show Trie.nil.rc + c ≤ c + 1
          show 0 + c ≤ c + 1
          omega
      | cons bp prest =>
        have hne : bp ≠ be := lcp_ne (by rw [hq]) (by rw [hq])
        cases bp
        · have hbe : be = true := by
            cases be
            · exact absurd rfl hne
            · rfl
          subst hbe
          show Trie.WF (Trie.node q (c + 1) (Trie.node (false :: prest) 1 Trie.nil Trie.nil)
            (Trie.node (true :: erest) c l r))
          refine ⟨?_, by omega, rfl, rfl,
            ⟨Nat.zero_le _, Nat.one_pos, trivial, trivial, trivial, trivial⟩,
            ⟨hle, hpos, hcl, hcr, hwl, hwr⟩⟩
          show 1 + c ≤ c + 1
          omega
        · have hbe : be = false := by
            cases be
            · rfl
            · exact absurd rfl hne
          subst hbe
          show Trie.WF (Trie.node q (c + 1) (Trie.node (false :: erest) c l r)
            (Trie.node (true :: prest) 1 Trie.nil Trie.nil))
          refine ⟨?_, by omega, rfl, rfl, ⟨hle, hpos, hcl, hcr, hwl, hwr⟩,
            ⟨Nat.zero_le _, Nat.one_pos, trivial, trivial, trivial, trivial⟩⟩
          show c + 1 ≤ c + 1
          omega

theorem contents_shift (e₁ e₂ : List Bool) (c : Nat) (l r : Trie) :
    (Trie.contents (Trie.node e₂ c l r)).map (e₁ ++ ·) =
      Trie.contents (Trie.node (e₁ ++ e₂) c l r) := by
  show (Multiset.replicate (c - (l.rc + r.rc)) e₂ +
      (l.contents + r.contents).map (e₂ ++ ·)).map (e₁ ++ ·) =
    Multiset.replicate (c - (l.rc + r.rc)) (e₁ ++ e₂) +
      (l.contents + r.contents).map ((e₁ ++ e₂) ++ ·)
  rw [Multiset.map_add, Multiset.map_replicate, Multiset.map_map]
  congr 1
  apply Multiset.map_congr rfl
  intro x _
  show e₁ ++ (e₂ ++ x) = (e₁ ++ e₂) ++ x
  rw [List.append_assoc]

theorem contents_ins : ∀ (t : Trie), t.WF → ∀ p, (t.ins p).contents = p ::ₘ t.contents := by
  intro t
  induction t with
  | nil =>
    intro _ p
    show Multiset.replicate (1 - 0) p + (Trie.contents .nil + Trie.contents .nil).map (p ++ ·) =
      p ::ₘ Trie.contents .nil
    show Multiset.replicate 1 p + ((0 : Multiset (List Bool)) + 0).map (p ++ ·) = p ::ₘ 0
    rw [Multiset.replicate_one p]
    simp
  | node e c l r ihl ihr =>
    intro hwf p
    obtain ⟨hle, hpos, hcl, hcr, hwl, hwr⟩ := hwf
    unfold Trie.ins
    rcases hq : lcp p e with ⟨q, pr, er⟩
    have hp : p = q ++ pr := by
      have := lcp_app₁ p e
      rwa [hq] at this
    have he : e = q ++ er := by
      have := lcp_app₂ p e
      rwa [hq] at this
    cases er with
    | nil =>
      rw [List.append_nil] at he
      cases pr with
      | nil =>
        rw [List.append_nil] at hp
        have hpe : p = e := by rw [hp, he]
        subst hpe
        show Multiset.replicate (c + 1 - (l.rc + r.rc)) p +
            (l.contents + r.contents).map (p ++ ·) =
          p ::ₘ (Multiset.replicate (c - (l.rc + r.rc)) p +
            (l.contents + r.contents).map (p ++ ·))
        have harith : c + 1 - (l.rc + r.rc) = (c - (l.rc + r.rc)) + 1 := by omega
        rw [harith, Multiset.replicate_succ, Multiset.cons_add]
      | cons b rest =>
        have hpe : p = e ++ b :: rest := by rw [hp, he]
        cases b
        · show Trie.contents (Trie.node e (c + 1) (Trie.ins (false :: rest) l) r) =
            p ::ₘ Trie.contents (Trie.node e c l r)
          show Multiset.replicate (c + 1 - ((Trie.ins (false :: rest) l).rc + r.rc)) e +
              ((Trie.ins (false :: rest) l).contents + r.contents).map (e ++ ·) =
            p ::ₘ (Multiset.replicate (c - (l.rc + r.rc)) e +
              (l.contents + r.contents).map (e ++ ·))
          rw [rc_ins, ihl hwl]
          have harith : c + 1 - (l.rc + 1 + r.rc) = c - (l.rc + r.rc) := by omega
          rw [harith, Multiset.cons_add, Multiset.map_cons, Multiset.add_cons, ← hpe]
        · show Trie.contents (Trie.node e (c + 1) l (Trie.ins (true :: rest) r)) =
            p ::ₘ Trie.contents (Trie.node e c l r)
          show Multiset.replicate (c + 1 - (l.rc + (Trie.ins (true :: rest) r).rc)) e +
              (l.contents + (Trie.ins (true :: rest) r).contents).map (e ++ ·) =
            p ::ₘ (Multiset.replicate (c - (l.rc + r.rc)) e +
              (l.contents + r.contents).map (e ++ ·))
          rw [rc_ins, ihr hwr]
          have harith : c + 1 - (l.rc + (r.rc + 1)) = c - (l.rc + r.rc) := by omega
          rw [harith, Multiset.add_cons, Multiset.map_cons, Multiset.add_cons, ← hpe]
    | cons be erest =>
      cases pr with
      | nil =>
        rw [List.append_nil] at hp
        subst hp
        cases be
        · show Trie.contents
              (Trie.node p (c + 1) (Trie.node (false :: erest) c l r) Trie.nil) =
            p ::ₘ Trie.contents (Trie.node e c l r)
          show Multiset.replicate (c + 1 - (c + Trie.nil.rc)) p +
              ((Trie.node (false :: erest) c l r).contents + Trie.contents .nil).map (p ++ ·) =
            p ::ₘ Trie.contents (Trie.node e c l r)
          show Multiset.replicate (c + 1 - (c + 0)) p +
              ((Trie.node (false :: erest) c l r).contents + 0).map (p ++ ·) =
            p ::ₘ Trie.contents (Trie.node e c l r)
          have h1 : c + 1 - (c + 0) = 1 := by omega
          rw [h1, add_zero, Multiset.replicate_one, contents_shift, ← he,
            Multiset.singleton_add]
        · show Trie.contents
              (Trie.node p (c + 1) Trie.nil (Trie.node (true :: erest) c l r)) =
            p ::ₘ Trie.contents (Trie.node e c l r)
          show Multiset.replicate (c + 1 - (Trie.nil.rc + c)) p +
              (Trie.contents .nil + (Trie.node (true :: erest) c l r).contents).map (p ++ ·) =
            p ::ₘ Trie.contents (Trie.node e c l r)
          show Multiset.replicate (c + 1 - (0 + c)) p +
              ((0 : Multiset (List Bool)) +
                (Trie.node (true :: erest) c l r).contents).map (p ++ ·) =
            p ::ₘ Trie.contents (Trie.node e c l r)
          have h1 : c + 1 - (0 + c) = 1 := by omega
          rw [h1, zero_add, Multiset.replicate_one, contents_shift, ← he,
            Multiset.singleton_add]
      | cons bp prest =>
        cases bp
        · show Trie.contents (Trie.node q (c + 1)
              (Trie.node (false :: prest) 1 Trie.nil Trie.nil)
              (Trie.node (be :: erest) c l r)) =
            p ::ₘ Trie.contents (Trie.node e c l r)
          show Multiset.replicate (c + 1 - (1 + c)) q +
              ((Trie.node (false :: prest) 1 Trie.nil Trie.nil).contents +
                (Trie.node (be :: erest) c l r).contents).map (q ++ ·) =
            p ::ₘ Trie.contents (Trie.node e c l r)
          have h0 : c + 1 - (1 + c) = 0 := by omega
          have hleaf : (Trie.node (false :: prest) 1 Trie.nil Trie.nil).contents =
              {(false :: prest : List Bool)} := by
            show Multiset.replicate (1 - (0 + 0)) (false :: prest) +
              ((0 : Multiset (List Bool)) + 0).map ((false :: prest) ++ ·) = _
            simp [Multiset.replicate_one]
          rw [h0, Multiset.replicate_zero, zero_add, hleaf, Multiset.map_add,
            Multiset.map_singleton, contents_shift, ← he, ← hp, Multiset.singleton_add]
        · show Trie.contents (Trie.node q (c + 1)
              (Trie.node (be :: erest) c l r)
              (Trie.node (true :: prest) 1 Trie.nil Trie.nil)) =
            p ::ₘ Trie.contents (Trie.node e c l r)
          show Multiset.replicate (c + 1 - (c + 1)) q +
              ((Trie.node (be :: erest) c l r).contents +
                (Trie.node (true :: prest) 1 Trie.nil Trie.nil).contents).map (q ++ ·) =
            p ::ₘ Trie.contents (Trie.node e c l r)
          have hleaf : (Trie.node (true :: prest) 1 Trie.nil Trie.nil).contents =
              {(true :: prest : List Bool)} := by
            show Multiset.replicate (1 - (0 + 0)) (true :: prest) +
              ((0 : Multiset (List Bool)) + 0).map ((true :: prest) ++ ·) = _
            simp [Multiset.replicate_one]
          rw [Nat.sub_self, Multiset.replicate_zero, zero_add, hleaf, Multiset.map_add,
            Multiset.map_singleton, contents_shift, ← he, ← hp, add_comm,
            Multiset.singleton_add]

theorem app_ne_self {e y : List Bool} (hy : y ≠ []) : e ++ y ≠ e := by
  intro h
  have := congrArg List.length h
  rw [List.length_append] at this
  have hz : y.length = 0 := by omega
  exact hy (List.length_eq_zero.mp hz)

theorem app_inj (e : List Bool) : Function.Injective (e ++ ·) :=
  fun _ _ h => List.append_cancel_left h

theorem rm_exact {e : List Bool} {c : Nat} {l r : Trie} :
    Trie.rm e (Trie.node e c l r) =
      if c - 1 = 0 ∧ l = Trie.nil ∧ r = Trie.nil then Trie.nil
      else Trie.node e (c - 1) l r := by
  unfold Trie.rm
  rw [lcp_self]

theorem rm_left {e rest : List Bool} {c : Nat} {l r : Trie} :
    Trie.rm (e ++ false :: rest) (Trie.node e c l r) =
      if c - 1 = 0 ∧ Trie.rm (false :: rest) l = Trie.nil ∧ r = Trie.nil then Trie.nil
      else Trie.node e (c - 1) (Trie.rm (false :: rest) l) r := by
  conv_lhs => rw [Trie.rm]
  rw [lcp_of_app]
  rfl

theorem rm_right {e rest : List Bool} {c : Nat} {l r : Trie} :
    Trie.rm (e ++ true :: rest) (Trie.node e c l r) =
      if c - 1 = 0 ∧ l = Trie.nil ∧ Trie.rm (true :: rest) r = Trie.nil then Trie.nil
      else Trie.node e (c - 1) l (Trie.rm (true :: rest) r) := by
  conv_lhs => rw [Trie.rm]
  rw [lcp_of_app]
  rfl

theorem rm_spec : ∀ (t : Trie), t.WF → ∀ p, p ∈ t.contents →
    (t.rm p).WF ∧ (t.rm p).rc = t.rc - 1 ∧ (t.rm p).contents = t.contents.erase p ∧
    (t.rm p = Trie.nil ∨ (t.rm p).hd = t.hd) := by
  intro t
  induction t with
  | nil =>
    intro _ p hp
    exact absurd hp (Multiset.not_mem_zero p)
  | node e c l r ihl ihr =>
    intro hwf p hp
    obtain ⟨hle, hpos, hcl, hcr, hwl, hwr⟩ := hwf
    rcases Multiset.mem_add.mp hp with hrep | hmap
    · -- p stored exactly at this node: p = e
      obtain ⟨hn, hpe⟩ := Multiset.mem_replicate.mp hrep
      subst hpe
      rw [rm_exact]
      by_cases hz : c - 1 = 0 ∧ l = Trie.nil ∧ r = Trie.nil
      · rw [if_pos hz]
        obtain ⟨hc1, hl, hr⟩ := hz
        subst hl
        subst hr
        have hc : c = 1 := by omega
        subst hc
        refine ⟨trivial, rfl, ?_, Or.inl rfl⟩
        show (0 : Multiset (List Bool)) =
          (Multiset.replicate (1 - (0 + 0)) p +
            ((0 : Multiset (List Bool)) + 0).map (p ++ ·)).erase p
        simp
      · rw [if_neg hz]
        have hlt : l.rc + r.rc < c := by omega
        have hcpos : 0 < c - 1 := by
          by_contra hcp
          have hc1 : c - 1 = 0 := by omega
          have hl0 : l.rc = 0 := by omega
          have hr0 : r.rc = 0 := by omega
          exact hz ⟨hc1, rc_zero_nil hwl hl0, rc_zero_nil hwr hr0⟩
        refine ⟨⟨by omega, hcpos, hcl, hcr, hwl, hwr⟩, rfl, ?_, Or.inr rfl⟩
        show Multiset.replicate (c - 1 - (l.rc + r.rc)) p +
            (l.contents + r.contents).map (p ++ ·) =
          (Multiset.replicate (c - (l.rc + r.rc)) p +
            (l.contents + r.contents).map (p ++ ·)).erase p
        rw [show c - (l.rc + r.rc) = (c - 1 - (l.rc + r.rc)) + 1 from by omega,
          Multiset.replicate_succ, Multiset.cons_add, Multiset.erase_cons_head]
    · -- p stored below: p = e ++ y with y in a child
      rcases Multiset.mem_map.mp hmap with ⟨y, hy, rfl⟩
      have hyne : (e ++ y) ∉ Multiset.replicate (c - (l.rc + r.rc)) e := by
        intro hmem
        obtain ⟨_, habs⟩ := Multiset.mem_replicate.mp hmem
        have hynil : y ≠ [] := by
          rcases Multiset.mem_add.mp hy with hyl | hyr
          · cases l with
            | nil => exact absurd hyl (Multiset.not_mem_zero y)
            | node el cl ll rl =>
              exact contents_ne_nil (show (Trie.node el cl ll rl).hd = some false from hcl) y hyl
          · cases r with
            | nil => exact absurd hyr (Multiset.not_mem_zero y)
            | node er' cr lr rr =>
              exact contents_ne_nil (show (Trie.node er' cr lr rr).hd = some true from hcr) y hyr
        exact app_ne_self hynil habs
      rcases Multiset.mem_add.mp hy with hyl | hyr
      · -- y lives in the left child
        cases l with
        | nil => exact absurd hyl (Multiset.not_mem_zero y)
        | node el cl ll rl =>
          have hyhd : y.head? = some false :=
            contents_hd (show (Trie.node el cl ll rl).hd = some false from hcl) y hyl
          cases y with
          | nil => cases hyhd
          | cons b0 rest =>
            have hb0 : b0 = false := by
              simpa using hyhd
            subst hb0
            have hclpos : 0 < cl := hwl.2.1
            obtain ⟨ihwf, ihrc, ihcont, ihhd⟩ := ihl hwl (false :: rest) hyl
            have ihrc' : (Trie.rm (false :: rest) (Trie.node el cl ll rl)).rc = cl - 1 :=
              ihrc
            rw [rm_left]
            by_cases hz : c - 1 = 0 ∧
                Trie.rm (false :: rest) (Trie.node el cl ll rl) = Trie.nil ∧ r = Trie.nil
            · rw [if_pos hz]
              obtain ⟨hc1, _, hrnil⟩ := hz
              subst hrnil
              have hc : c = 1 := by omega
              have hcl1 : cl = 1 := by
                have : (Trie.node el cl ll rl).rc + Trie.nil.rc ≤ c := hle
                rw [show (Trie.node el cl ll rl).rc = cl from rfl] at this
                omega
              have hcard : Multiset.card (Trie.node el cl ll rl).contents = 1 := by
                rw [card_contents hwl]
                exact hcl1
              rcases Multiset.card_eq_one.mp hcard with ⟨a, ha⟩
              have hya : (false :: rest) = a := by
                rw [ha] at hyl
                exact Multiset.mem_singleton.mp hyl
              subst hya
              refine ⟨trivial, by show (0 : Nat) = c - 1; omega, ?_, Or.inl rfl⟩
              show (0 : Multiset (List Bool)) =
                (Multiset.replicate (c - (cl + 0)) e +
                  ((Trie.node el cl ll rl).contents + (0 : Multiset (List Bool))).map
                    (e ++ ·)).erase (e ++ false :: rest)
              rw [ha, hc, hcl1]
              simp
            · rw [if_neg hz]
              have hcpos : 0 < c - 1 := by
                by_contra hcp
                have hc1 : c - 1 = 0 := by omega
                have hc : c = 1 := by omega
                have hlle : cl + r.rc ≤ c := hle
                have hcl1 : cl = 1 := by omega
                have hr0 : r.rc = 0 := by omega
                have hrmrc : (Trie.rm (false :: rest) (Trie.node el cl ll rl)).rc = 0 := by
                  omega
                exact hz ⟨hc1, rc_zero_nil ihwf hrmrc, rc_zero_nil hwr hr0⟩
              have hcok : childOk (Trie.rm (false :: rest) (Trie.node el cl ll rl)) false := by
                rcases ihhd with hnil | hhd
                · rw [hnil]
                  trivial
                · apply childOk_of_hd
                  rw [hhd]
                  exact hcl
              refine ⟨⟨?_, hcpos, hcok, hcr, ihwf, hwr⟩, rfl, ?_, Or.inr rfl⟩
              · rw [ihrc']
                have : cl + r.rc ≤ c := hle
                omega
              · rw [show (Trie.node el cl ll rl).rc = cl from rfl] at hyne
                show Multiset.replicate
                    (c - 1 - ((Trie.rm (false :: rest) (Trie.node el cl ll rl)).rc + r.rc)) e +
                    ((Trie.rm (false :: rest) (Trie.node el cl ll rl)).contents +
                      r.contents).map (e ++ ·) =
                  (Multiset.replicate (c - (cl + r.rc)) e +
                    ((Trie.node el cl ll rl).contents + r.contents).map (e ++ ·)).erase
                    (e ++ false :: rest)
                rw [Multiset.erase_add_right_neg _ hyne, ← Multiset.map_erase _ (app_inj e),
                  Multiset.erase_add_left_pos _ hyl, ihrc', ihcont]
                congr 1
                congr 1
                have : cl + r.rc ≤ c := hle
                omega
      · -- y lives in the right child
        cases r with
        | nil => exact absurd hyr (Multiset.not_mem_zero y)
        | node er' cr lr rr =>
          have hyhd : y.head? = some true :=
            contents_hd (show (Trie.node er' cr lr rr).hd = some true from hcr) y hyr
          cases y with
          | nil => cases hyhd
          | cons b0 rest =>
            have hb0 : b0 = true := by
              simpa using hyhd
            subst hb0
            have hcrpos : 0 < cr := hwr.2.1
            obtain ⟨ihwf, ihrc, ihcont, ihhd⟩ := ihr hwr (true :: rest) hyr
            have ihrc' : (Trie.rm (true :: rest) (Trie.node er' cr lr rr)).rc = cr - 1 :=
              ihrc
            rw [rm_right]
            by_cases hz : c - 1 = 0 ∧ l = Trie.nil ∧
                Trie.rm (true :: rest) (Trie.node er' cr lr rr) = Trie.nil
            · rw [if_pos hz]
              obtain ⟨hc1, hlnil, _⟩ := hz
              subst hlnil
              have hc : c = 1 := by omega
              have hcr1 : cr = 1 := by
                have : Trie.nil.rc + (Trie.node er' cr lr rr).rc ≤ c := hle
                rw [show (Trie.node er' cr lr rr).rc = cr from rfl] at this
                omega
              have hcard : Multiset.card (Trie.node er' cr lr rr).contents = 1 := by
                rw [card_contents hwr]
                exact hcr1
              rcases Multiset.card_eq_one.mp hcard with ⟨a, ha⟩
              have hya : (true :: rest) = a := by
                rw [ha] at hyr
                exact Multiset.mem_singleton.mp hyr
              subst hya
              refine ⟨trivial, by show (0 : Nat) = c - 1; omega, ?_, Or.inl rfl⟩
              show (0 : Multiset (List Bool)) =
                (Multiset.replicate (c - (0 + cr)) e +
                  ((0 : Multiset (List Bool)) + (Trie.node er' cr lr rr).contents).map
                    (e ++ ·)).erase (e ++ true :: rest)
              rw [ha, hc, hcr1]
              simp
            · rw [if_neg hz]
              have hcpos : 0 < c - 1 := by
                by_contra hcp
                have hc1 : c - 1 = 0 := by omega
                have hc : c = 1 := by omega
                have hlle : l.rc + cr ≤ c := hle
                have hcr1 : cr = 1 := by omega
                have hl0 : l.rc = 0 := by omega
                have hrmrc : (Trie.rm (true :: rest) (Trie.node er' cr lr rr)).rc = 0 := by
                  omega
                exact hz ⟨hc1, rc_zero_nil hwl hl0, rc_zero_nil ihwf hrmrc⟩
              have hcok : childOk (Trie.rm (true :: rest) (Trie.node er' cr lr rr)) true := by
                rcases ihhd with hnil | hhd
                · rw [hnil]
                  trivial
                · apply childOk_of_hd
                  rw [hhd]
                  exact hcr
              refine ⟨⟨?_, hcpos, hcl, hcok, hwl, ihwf⟩, rfl, ?_, Or.inr rfl⟩
              · rw [ihrc']
                have : l.rc + cr ≤ c := hle
                omega
              · rw [show (Trie.node er' cr lr rr).rc = cr from rfl] at hyne
                show Multiset.replicate
                    (c - 1 - (l.rc + (Trie.rm (true :: rest) (Trie.node er' cr lr rr)).rc)) e +
                    (l.contents +
                      (Trie.rm (true :: rest) (Trie.node er' cr lr rr)).contents).map
                      (e ++ ·) =
                  (Multiset.replicate (c - (l.rc + cr)) e +
                    (l.contents + (Trie.node er' cr lr rr).contents).map (e ++ ·)).erase
                    (e ++ true :: rest)
                rw [Multiset.erase_add_right_neg _ hyne, ← Multiset.map_erase _ (app_inj e),
                  Multiset.erase_add_right_pos _ hyr, ihrc', ihcont]
                congr 1
                congr 1
                have : l.rc + cr ≤ c := hle
                omega

/-- Paths (relative bit strings) of every node in the trie. -/
def Trie.nodePaths : Trie → List (List Bool)
  | .nil => []
  | .node e _ l r => e :: (l.nodePaths ++ r.nodePaths).map (e ++ ·)

/-- The per-node count equation with the terminating-rule multiplicity:
count = sum of the children's counts + number of installed rules whose
prefix terminates exactly at the node. -/
def Trie.nodeOkM (ps : Multiset (List Bool)) : List Bool → Trie → Bool
  | _, .nil => true
  | q, .node e c l r =>
    (c == l.rc + r.rc + ps.count (q ++ e)) &&
      Trie.nodeOkM ps (q ++ e) l && Trie.nodeOkM ps (q ++ e) r

/-- The claimed per-node count equation: count = sum of the children's
counts + 1 if some rule's prefix terminates exactly at the node, else 0. -/
def Trie.nodeOkOne (ps : Multiset (List Bool)) : List Bool → Trie → Bool
  | _, .nil => true
  | q, .node e c l r =>
    (c == l.rc + r.rc + (if (q ++ e) ∈ ps then 1 else 0)) &&
      Trie.nodeOkOne ps (q ++ e) l && Trie.nodeOkOne ps (q ++ e) r

/-- No node has zero count and no children. -/
def Trie.noDead : Trie → Bool
  | .nil => true
  | .node _ c l r =>
    (!(c == 0) || !(l == Trie.nil) || !(r == Trie.nil)) && l.noDead && r.noDead

theorem nodePaths_hd {t : Trie} {b : Bool} (h : t.hd = some b) :
    ∀ π ∈ t.nodePaths, π.head? = some b := by
  cases t with
  | nil => intro π hπ; cases hπ
  | node e c l r =>
    rw [show (Trie.node e c l r).hd = e.head? from rfl] at h
    cases e with
    | nil => cases h
    | cons a e' =>
      simp only [List.head?_cons, Option.some.injEq] at h
      subst h
      intro π hπ
      rcases List.mem_cons.mp hπ with hπ | hπ
      · subst hπ
        rfl
      · rcases List.mem_map.mp hπ with ⟨x, _, rfl⟩
        rfl

theorem count_contents_self (e : List Bool) (c : Nat) {l r : Trie}
    (hcl : childOk l false) (hcr : childOk r true) :
    (Trie.node e c l r).contents.count e = c - (l.rc + r.rc) := by
  show (Multiset.replicate (c - (l.rc + r.rc)) e +
    (l.contents + r.contents).map (e ++ ·)).count e = c - (l.rc + r.rc)
  rw [Multiset.count_add, Multiset.count_replicate, if_pos rfl]
  have hz : ((l.contents + r.contents).map (e ++ ·)).count e = 0 := by
    rw [Multiset.count_eq_zero]
    intro hmem
    rcases Multiset.mem_map.mp hmem with ⟨y, hy, hey⟩
    have hynil : y ≠ [] := by
      rcases Multiset.mem_add.mp hy with hyl | hyr
      · cases l with
        | nil => exact absurd hyl (Multiset.not_mem_zero y)
        | node el cl ll rl =>
          exact contents_ne_nil (show (Trie.node el cl ll rl).hd = some false from hcl) y hyl
      · cases r with
        | nil => exact absurd hyr (Multiset.not_mem_zero y)
        | node er' cr lr rr =>
          exact contents_ne_nil (show (Trie.node er' cr lr rr).hd = some true from hcr) y hyr
    exact app_ne_self hynil hey
  rw [hz]
  omega

theorem count_contents_left (e : List Bool) (c : Nat) {l r : Trie}
    (hcr : childOk r true) {x : List Bool} (hx : x.head? = some false) :
    (Trie.node e c l r).contents.count (e ++ x) = l.contents.count x := by
  show (Multiset.replicate (c - (l.rc + r.rc)) e +
    (l.contents + r.contents).map (e ++ ·)).count (e ++ x) = l.contents.count x
  rw [Multiset.count_add, Multiset.count_replicate]
  have hxne : x ≠ [] := by
    intro hcon
    rw [hcon] at hx
    cases hx
  rw [if_neg (fun hcon => app_ne_self hxne hcon.symm)]
  rw [Multiset.count_map_eq_count' _ _ (app_inj e) x, Multiset.count_add]
  have hz : r.contents.count x = 0 := by
    rw [Multiset.count_eq_zero]
    intro hmem
    cases r with
    | nil => exact Multiset.not_mem_zero x hmem
    | node er' cr lr rr =>
      have := contents_hd (show (Trie.node er' cr lr rr).hd = some true from hcr) x hmem
      rw [hx] at this
      cases this
  rw [hz]
  omega

theorem count_contents_right (e : List Bool) (c : Nat) {l r : Trie}
    (hcl : childOk l false) {x : List Bool} (hx : x.head? = some true) :
    (Trie.node e c l r).contents.count (e ++ x) = r.contents.count x := by
  show (Multiset.replicate (c - (l.rc + r.rc)) e +
    (l.contents + r.contents).map (e ++ ·)).count (e ++ x) = r.contents.count x
  rw [Multiset.count_add, Multiset.count_replicate]
  have hxne : x ≠ [] := by
    intro hcon
    rw [hcon] at hx
    cases hx
  rw [if_neg (fun hcon => app_ne_self hxne hcon.symm)]
  rw [Multiset.count_map_eq_count' _ _ (app_inj e) x, Multiset.count_add]
  have hz : l.contents.count x = 0 := by
    rw [Multiset.count_eq_zero]
    intro hmem
    cases l with
    | nil => exact Multiset.not_mem_zero x hmem
    | node el cl ll rl =>
      have := contents_hd (show (Trie.node el cl ll rl).hd = some false from hcl) x hmem
      rw [hx] at this
      cases this
  rw [hz]
  omega

theorem nodeOkM_of_counts : ∀ (t : Trie), t.WF → ∀ (ps : Multiset (List Bool)) (q : List Bool),
    (∀ π ∈ t.nodePaths, ps.count (q ++ π) = t.contents.count π) →
    Trie.nodeOkM ps q t = true := by
  intro t
  induction t with
  | nil => intro _ ps q _; rfl
  | node e c l r ihl ihr =>
    intro hwf ps q hcount
    obtain ⟨hle, hpos, hcl, hcr, hwl, hwr⟩ := hwf
    show ((c == l.rc + r.rc + ps.count (q ++ e)) &&
      Trie.nodeOkM ps (q ++ e) l && Trie.nodeOkM ps (q ++ e) r) = true
    rw [Bool.and_eq_true, Bool.and_eq_true]
    refine ⟨⟨?_, ?_⟩, ?_⟩
    · rw [beq_iff_eq]
      have h0 := hcount e (List.mem_cons_self _ _)
      rw [count_contents_self e c hcl hcr] at h0
      rw [h0]
      omega
    · apply ihl hwl ps (q ++ e)
      intro π hπ
      have hmem : (e ++ π) ∈ (Trie.node e c l r).nodePaths :=
        List.mem_cons_of_mem _ (List.mem_map.mpr ⟨π, List.mem_append_left _ hπ, rfl⟩)
      have h0 := hcount (e ++ π) hmem
      rw [← List.append_assoc] at h0
      rw [h0]
      cases l with
      | nil => cases hπ
      | node el cl ll rl =>
        have hπhd : π.head? = some false :=
          nodePaths_hd (show (Trie.node el cl ll rl).hd = some false from hcl) π hπ
        exact count_contents_left e c hcr hπhd
    · apply ihr hwr ps (q ++ e)
      intro π hπ
      have hmem : (e ++ π) ∈ (Trie.node e c l r).nodePaths :=
        List.mem_cons_of_mem _ (List.mem_map.mpr ⟨π, List.mem_append_right _ hπ, rfl⟩)
      have h0 := hcount (e ++ π) hmem
      rw [← List.append_assoc] at h0
      rw [h0]
      cases r with
      | nil => cases hπ
      | node er' cr lr rr =>
        have hπhd : π.head? = some true :=
          nodePaths_hd (show (Trie.node er' cr lr rr).hd = some true from hcr) π hπ
        exact count_contents_right e c hcl hπhd

theorem noDead_of_wf : ∀ (t : Trie), t.WF → t.noDead = true := by
  intro t
  induction t with
  | nil => intro _; rfl
  | node e c l r ihl ihr =>
    intro hwf
    obtain ⟨_, hpos, _, _, hwl, hwr⟩ := hwf
    show ((!(c == 0) || !(l == Trie.nil) || !(r == Trie.nil)) && l.noDead && r.noDead) = true
    rw [Bool.and_eq_true, Bool.and_eq_true, ihl hwl, ihr hwr]
    refine ⟨⟨?_, rfl⟩, rfl⟩
    have hc0 : (c == 0) = false := by
      rw [beq_eq_false_iff_ne]
      omega
    rw [hc0]
    rfl

/-- A trie maintenance operation (rule prefix inserted or removed). -/
inductive TrieOp where
  | tins (p : List Bool)
  | trm (p : List Bool)
deriving DecidableEq

/-- Run a sequence of trie operations. -/
def texec (t : Trie) : List TrieOp → Trie
  | [] => t
  | .tins p :: ops => texec (t.ins p) ops
  | .trm p :: ops => texec (t.rm p) ops

/-- The multiset of prefixes installed after a sequence of operations. -/
def tmultiset (ps : Multiset (List Bool)) : List TrieOp → Multiset (List Bool)
  | [] => ps
  | .tins p :: ops => tmultiset (p ::ₘ ps) ops
  | .trm p :: ops => tmultiset (ps.erase p) ops

/-- Valid operation sequences: a remove only ever names a currently
installed prefix (spec §4.2: remove is symmetric to an earlier insert). -/
def tvalid (ps : Multiset (List Bool)) : List TrieOp → Bool
  | [] => true
  | .tins p :: ops => tvalid (p ::ₘ ps) ops
  | .trm p :: ops => decide (p ∈ ps) && tvalid (ps.erase p) ops

theorem texec_inv : ∀ (ops : List TrieOp) (t : Trie) (ps : Multiset (List Bool)),
    t.WF → t.contents = ps → tvalid ps ops = true →
    (texec t ops).WF ∧ (texec t ops).contents = tmultiset ps ops := by
  intro ops
  induction ops with
  | nil =>
    intro t ps hwf hc _
    exact ⟨hwf, hc⟩
  | cons op rest ih =>
    intro t ps hwf hc hv
    cases op with
    | tins p =>
      show (texec (t.ins p) rest).WF ∧ (texec (t.ins p) rest).contents =
        tmultiset (p ::ₘ ps) rest
      exact ih (t.ins p) (p ::ₘ ps) (wf_ins t hwf p) (by rw [contents_ins t hwf p, hc]) hv
    | trm p =>
      rw [show tvalid ps (TrieOp.trm p :: rest) =
        (decide (p ∈ ps) && tvalid (ps.erase p) rest) from rfl, Bool.and_eq_true] at hv
      have hmem : p ∈ t.contents := by
        rw [hc]
        exact of_decide_eq_true hv.1
      obtain ⟨hwf', _, hcont', _⟩ := rm_spec t hwf p hmem
      show (texec (t.rm p) rest).WF ∧ (texec (t.rm p) rest).contents =
        tmultiset (ps.erase p) rest
      exact ih (t.rm p) (ps.erase p) hwf' (by rw [hcont', hc]) hv.2

/-- C9 counterexample: the claim's count equation uses an indicator "+1 if
some rule terminates at the node"; inserting the same prefix twice (two
rules sharing one prefix) gives a node with count 2, no children, and
indicator 1 — the claimed equation fails after a completed insert. -/
theorem trie_count_claim_cex :
    tvalid 0 [TrieOp.tins [false], TrieOp.tins [false]] = true ∧
    Trie.nodeOkOne (tmultiset 0 [TrieOp.tins [false], TrieOp.tins [false]]) []
      (texec Trie.nil [TrieOp.tins [false], TrieOp.tins [false]]) = false := by
  constructor
  · rfl
  · rfl

/-- C9 (amended): after every completed sequence of inserts and removes of
rule prefixes (each remove naming an installed prefix), every node of the
prefix trie satisfies `count = sum of children's counts + (number of
installed rules whose prefix terminates exactly at that node)` — the
indicator of the original claim becomes a multiplicity, since several
rules may share a prefix — and no node has zero count and no children. -/
theorem trie_count_invariant (ops : List TrieOp) (hv : tvalid 0 ops = true) :
    Trie.nodeOkM (tmultiset 0 ops) [] (texec Trie.nil ops) = true ∧
    (texec Trie.nil ops).noDead = true := by
  obtain ⟨hwf, hcont⟩ := texec_inv ops Trie.nil 0 trivial rfl hv
  constructor
  · apply nodeOkM_of_counts _ hwf
    intro π hπ
    rw [List.nil_append, hcont]
  · exact noDead_of_wf _ hwf

/-- Witness for C9 (amended) on a concrete operation sequence with a
split, a shared prefix and a remove. -/
theorem trie_count_invariant_witness :
    Trie.nodeOkM (tmultiset 0 [TrieOp.tins [true], TrieOp.tins [true, false],
        TrieOp.tins [true], TrieOp.trm [true]]) []
      (texec Trie.nil [TrieOp.tins [true], TrieOp.tins [true, false],
        TrieOp.tins [true], TrieOp.trm [true]]) = true ∧
    (texec Trie.nil [TrieOp.tins [true], TrieOp.tins [true, false],
      TrieOp.tins [true], TrieOp.trm [true]]).noDead = true :=
  trie_count_invariant [TrieOp.tins [true], TrieOp.tins [true, false],
    TrieOp.tins [true], TrieOp.trm [true]] (by decide)

end Ovs
